import Mathlib

/-!
Verification of the RobustMQ coordination core against its specification.

The definitions below are a shallow embedding, translated from the Rust
sources, of the parts of the program the verified claims are about:

* the delay-task manager and its crash recovery
  (`common/delay-task/src/manager.rs`, `recover.rs`);
* the node-call fan-out router and its RPC retry helper
  (`common/node-call/src/consumer.rs`, `handler.rs`, `lib.rs`);
* the meta-service Raft group construction and shard routing
  (`meta-service/src/raft/group.rs`);
* the broker cluster-readiness check (`broker-core/src/heartbeat.rs`);
* the RocksDB storage adapter (`storage-adapter/src/rocksdb/mod.rs`)
  over a model of an ordered key-value store.

Machine integers (`u64`, `u32`, `usize`) are modelled as `Nat`; wherever
overflow or saturation is semantically relevant the embedding makes the
`2 ^ 64` bound explicit.
-/

namespace RobustMQ

/-- The modulus of 64-bit unsigned arithmetic. -/
def U64MOD : Nat := 2 ^ 64

/-- Reduce a natural number into the `u64` range (two's-complement wrap). -/
def wrap64 (n : Nat) : Nat := n % U64MOD

/-- The `u64::saturating_mul` operation. -/
def satMul64 (a b : Nat) : Nat := min (a * b) (U64MOD - 1)

/-- The `u64::saturating_add` operation. -/
def satAdd64 (a b : Nat) : Nat := min (a + b) (U64MOD - 1)

/-- Rotate a 64-bit value left by `r` bits (`0 < r < 64`).  The rotated-in
high part `x / 2 ^ (64 - r)` is below `2 ^ r` and the shifted low part is a
multiple of `2 ^ r`, so addition coincides with bitwise or. -/
def rotl64 (x r : Nat) : Nat := wrap64 (x * 2 ^ r) + x / 2 ^ (64 - r)

/-! ### SipHash-1-3

`std::collections::hash_map::DefaultHasher::new()` in Rust is
`SipHasher13::new_with_keys(0, 0)`: SipHash with one compression round and
three finalization rounds.  Both `consumer.rs` (`spawn_router`) and
`group.rs` (`route_shard`) hash their partition keys with it, so the model
implements it over byte lists. -/

/-- The four 64-bit state words of a SipHash computation. -/
structure SipState where
  v0 : Nat
  v1 : Nat
  v2 : Nat
  v3 : Nat
deriving DecidableEq

/-- One SIPROUND permutation of the state, as in the SipHash reference. -/
def sipRound (s : SipState) : SipState :=
  let v0 := wrap64 (s.v0 + s.v1)
  let v1 := rotl64 s.v1 13
  let v1 := v1 ^^^ v0
  let v0 := rotl64 v0 32
  let v2 := wrap64 (s.v2 + s.v3)
  let v3 := rotl64 s.v3 16
  let v3 := v3 ^^^ v2
  let v0' := wrap64 (v0 + v3)
  let v3 := rotl64 v3 21
  let v3 := v3 ^^^ v0'
  let v2' := wrap64 (v2 + v1)
  let v1 := rotl64 v1 17
  let v1 := v1 ^^^ v2'
  let v2' := rotl64 v2' 32
  ⟨v0', v1, v2', v3⟩

/-- Absorb one 8-byte little-endian word: `v3 ^= m`, `c` SIPROUNDs
(`c = 1` for SipHash-1-3), `v0 ^= m`. -/
def sipCompress (s : SipState) (m : Nat) : SipState :=
  let s := { s with v3 := s.v3 ^^^ m }
  let s := sipRound s
  { s with v0 := s.v0 ^^^ m }

/-- Little-endian value of a byte list (first byte is least significant). -/
def leWord (bs : List Nat) : Nat := bs.foldr (fun b acc => b + 256 * acc) 0

/-- Absorb all full 8-byte blocks of the message, returning the final state
and the trailing partial block (at most 7 bytes). -/
def sipBlocks (s : SipState) : List Nat → SipState × List Nat
  | b0 :: b1 :: b2 :: b3 :: b4 :: b5 :: b6 :: b7 :: rest =>
      sipBlocks (sipCompress s (leWord [b0, b1, b2, b3, b4, b5, b6, b7])) rest
  | tail => (s, tail)

/-- SipHash-1-3 of a byte list under keys `(k0, k1)`: initialize the state
with the reference constants, absorb full blocks, absorb the final block
`((len mod 256) << 56) | tail`, xor `0xff` into `v2`, run three
finalization rounds and xor the four words together. -/
def sipHash13 (k0 k1 : Nat) (msg : List Nat) : Nat :=
  let s0 : SipState :=
    ⟨k0 ^^^ 0x736f6d6570736575, k1 ^^^ 0x646f72616e646f6d,
     k0 ^^^ 0x6c7967656e657261, k1 ^^^ 0x7465646279746573⟩
  let st := sipBlocks s0 msg
  let b := (msg.length % 256) * 2 ^ 56 + leWord st.2
  let s := sipCompress st.1 b
  let s := { s with v2 := s.v2 ^^^ 0xff }
  let s := sipRound (sipRound (sipRound s))
  s.v0 ^^^ s.v1 ^^^ s.v2 ^^^ s.v3

/-- UTF-8 encoding of one character (the byte sequence Rust's `str::as_bytes`
would contain for it). -/
def utf8Bytes (c : Char) : List Nat :=
  let n := c.toNat
  if n < 0x80 then [n]
  else if n < 0x800 then [0xC0 + n / 64, 0x80 + n % 64]
  else if n < 0x10000 then [0xE0 + n / 4096, 0x80 + n / 64 % 64, 0x80 + n % 64]
  else [0xF0 + n / 0x40000, 0x80 + n / 4096 % 64, 0x80 + n / 64 % 64, 0x80 + n % 64]

/-- The UTF-8 bytes of a string. -/
def strBytes (s : String) : List Nat := (s.data.map utf8Bytes).flatten

/-- Rust's `DefaultHasher` applied to a `&str` key: `Hash for str` feeds the
UTF-8 bytes followed by a `0xff` terminator into `SipHasher13` with zero
keys, and `finish()` returns the 64-bit result. -/
def defaultHashStr (s : String) : Nat := sipHash13 0 0 (strBytes s ++ [0xff])

/-! ### Node-call fan-out (`common/node-call/src/lib.rs`, `consumer.rs`)

`UpdateCacheData` and `LastWillMessageItem` are carried opaquely by the
router; only `LastWillMessageItem.client_id` is inspected
(`NodeCallData::partition_key`). -/

/-- Payload of `NodeCallData::UpdateCache` (action, resource, bytes);
opaque to the router. -/
structure UpdateCacheData where
  action_type : Nat
  resource_type : Nat
  data : List Nat
deriving DecidableEq

/-- The protobuf `LastWillMessageItem`; only `client_id` is read by the
router, the last-will payload stays opaque bytes. -/
structure LastWillMessageItem where
  client_id : String
  last_will_message : List Nat
deriving DecidableEq

/-- The `NodeCallData` enum of `common/node-call/src/lib.rs`. -/
inductive NodeCallData where
  | UpdateCache (data : UpdateCacheData)
  | DeleteSession (client_id : String)
  | SendLastWillMessage (item : LastWillMessageItem)
deriving DecidableEq

/-- `NodeCallData::partition_key`: `None` for `UpdateCache`, the client id
for the two session-scoped variants. -/
def NodeCallData.partition_key : NodeCallData → Option String
  | .UpdateCache _ => none
  | .DeleteSession client_id => some client_id
  | .SendLastWillMessage item => some item.client_id

/-- `WORKER_THREAD_NUM` from `common/node-call/src/lib.rs`. -/
def WORKER_THREAD_NUM : Nat := 10

/-- `RPC_MAX_RETRIES` from `common/node-call/src/lib.rs`. -/
def RPC_MAX_RETRIES : Nat := 3

/-- `RPC_RETRY_BASE_MS` from `common/node-call/src/lib.rs`. -/
def RPC_RETRY_BASE_MS : Nat := 50

/-- The worker index chosen by `spawn_router` in `consumer.rs` for one
message, with `workerNum` workers: `0` when there is no partition key,
`(hash(key) mod (workerNum - 1)) + 1` otherwise. -/
def routerWorkerIndex (workerNum : Nat) (data : NodeCallData) : Nat :=
  match data.partition_key with
  | none => 0
  | some key => defaultHashStr key % (workerNum - 1) + 1

/-! ### RPC retry helper (`common/node-call/src/handler.rs`)

`retry_rpc` performs up to `RPC_MAX_RETRIES` attempts of a fallible RPC
closure; it returns `()` in all cases.  The model takes the outcome of
each attempt as a function `results : Nat → Bool` (`true` = the attempt
succeeds) and records the observable trace: how many times the closure was
invoked and the list of backoff sleeps (in milliseconds) performed. -/

/-- The backoff computed after failed attempt `attempt`:
`RPC_RETRY_BASE_MS.saturating_mul(1u64 << (attempt - 1))`. -/
def retryBackoffMs (attempt : Nat) : Nat :=
  satMul64 RPC_RETRY_BASE_MS (1 <<< (attempt - 1))

/-- One execution of the `for attempt in 1..=RPC_MAX_RETRIES` loop of
`retry_rpc`, starting at attempt number `attempt` with `remaining`
loop iterations left.  Returns `(number of invocations, sleeps)`. -/
def retryRun (results : Nat → Bool) : Nat → Nat → Nat × List Nat
  | _, 0 => (0, [])
  | attempt, remaining + 1 =>
    if results attempt then (1, [])
    else if RPC_MAX_RETRIES ≤ attempt then (1, [])
    else
      let rest := retryRun results (attempt + 1) remaining
      (rest.1 + 1, retryBackoffMs attempt :: rest.2)

/-- The trace of `retry_rpc` on a given sequence of attempt outcomes.
The function itself always returns `()` — it has no error channel. -/
def retry_rpc (results : Nat → Bool) : Nat × List Nat :=
  retryRun results 1 RPC_MAX_RETRIES

/-! ### Raft group (`meta-service/src/raft/group.rs`)

The Raft nodes themselves are opaque; the model keeps the map keys of
`raft_group` (the shard names a `Raft<TypeConfig>` was created and
inserted for). -/

/-- The routing-relevant state of `RaftGroup`. -/
structure RaftGroup where
  group_name : String
  group_num : Nat
  raft_group : List String
deriving DecidableEq

/-- `RaftGroup::shard_name`: `format!("{}_{}", group_name, index)`. -/
def raftShardName (group_name : String) (index : Nat) : String :=
  group_name ++ "_" ++ toString index

/-- `RaftGroup::new`: clamps the configured count with
`group_num.max(1)` and creates one raft shard for each
`i in 0..group_num`. -/
def RaftGroup.new (group_name : String) (group_num : Nat) : RaftGroup :=
  let group_num := max group_num 1
  { group_name
    group_num
    raft_group := (List.range group_num).map (raftShardName group_name) }

/-- `RaftGroup::route_shard`: hash the key with `DefaultHasher`, reduce
modulo `group_num`, and render the shard name. -/
def RaftGroup.route_shard (g : RaftGroup) (key : String) : String :=
  raftShardName g.group_name (defaultHashStr key % g.group_num)

/-! ### Delay tasks (`common/delay-task/src/lib.rs`, `manager.rs`,
`recover.rs`) -/

/-- The `DelayTaskData` enum. -/
inductive DelayTaskData where
  | MQTTSessionExpire (client_id : String)
  | MQTTLastwillExpire (client_id : String)
deriving DecidableEq

/-- The `DelayTask` struct (times in seconds, as in the source). -/
structure DelayTask where
  task_id : String
  data : DelayTaskData
  delay_target_time : Nat
  create_time : Nat
  persistent : Bool
deriving DecidableEq

/-- The delay computed by `DelayTaskManager::enqueue_task`
(`manager.rs` lines 153-158): `delay_target_time - current_time` seconds
when the target is still in the future, `0` otherwise.  The `u64`
subtraction is performed only under the guard
`delay_target_time > current_time`. -/
def enqueueDelaySecs (delay_target_time current_time : Nat) : Nat :=
  if delay_target_time > current_time then delay_target_time - current_time
  else 0

/-- Outcome classification of `process_delay_task_record` in
`recover.rs`. -/
inductive RecoverResult where
  | Recovered
  | Expired
  | Failed
deriving DecidableEq

/-- `process_delay_task_record`: deserialization is abstracted to an
`Option DelayTask` (a `None` models a record whose bytes do not
deserialize).  An expired task (`delay_target_time < now`) is executed
immediately via `handle_expired_delay_task` and reported `Expired`;
any other task is enqueued via `enqueue_task` and reported
`Recovered`. -/
def processDelayTaskRecord (task? : Option DelayTask) (now : Nat) :
    RecoverResult :=
  match task? with
  | none => .Failed
  | some task => if task.delay_target_time < now then .Expired else .Recovered

/-! ### Cluster readiness (`broker-core/src/heartbeat.rs`) -/

/-- A model of `serde_json::Value`; only the object shape is inspected by
`MetaServiceStatus::is_ready`, the other variants stay abstract. -/
inductive JsonValue where
  | null
  | bool (b : Bool)
  | num (n : Int)
  | str (s : String)
  | arr (xs : List JsonValue)
  | obj (fields : List (String × JsonValue))

/-- `serde_json::Value::as_object`: `Some` of the field list exactly for
the `Object` variant. -/
def JsonValue.asObject? : JsonValue → Option (List (String × JsonValue))
  | .obj fields => some fields
  | _ => none

/-- The `MetaServiceStatus` struct parsed per raft shard. -/
structure MetaServiceStatus where
  running_state : JsonValue
  current_leader : Nat

/-- `Map::contains_key` on a JSON object's fields. -/
def jsonContainsKey (fields : List (String × JsonValue)) (k : String) : Bool :=
  fields.any (fun f => f.1 == k)

/-- `MetaServiceStatus::is_ready`: `running_state` must be an object
containing the key `"Ok"`, and `current_leader` must be non-zero. -/
def MetaServiceStatus.is_ready (s : MetaServiceStatus) : Bool :=
  ((s.running_state.asObject?.map (fun m => jsonContainsKey m "Ok")).getD false)
    && s.current_leader != 0

/-- One evaluation of the closure inside `check_meta_service_status`, on an
already-parsed shard-status map: `Ok(None)` for an empty map, `Ok(Some
true)` when no shard is unready, `Ok(None)` otherwise. -/
def checkMetaOnce (shard_statuses : List (String × MetaServiceStatus)) :
    Option Bool :=
  if shard_statuses.isEmpty then none
  else
    let not_ready := shard_statuses.filter (fun p => !p.2.is_ready)
    if not_ready.isEmpty then some true else none

/-- The polling loop of `check_meta_service_status`.  `polls i` is the
outcome of the `i`-th `meta_cluster_status` call combined with JSON
parsing (an `Except.error` models either failing).  The loop breaks only
on `Ok(Some(true))` and otherwise sleeps 1 s and retries; `fuel` bounds
the number of iterations we inspect, and the result is the index of the
poll at which the loop returned, if any. -/
def checkLoopFrom (polls : Nat → Except String (List (String × MetaServiceStatus))) :
    Nat → Nat → Option Nat
  | _, 0 => none
  | i, fuel + 1 =>
    match polls i with
    | .ok m => if checkMetaOnce m = some true then some i
               else checkLoopFrom polls (i + 1) fuel
    | .error _ => checkLoopFrom polls (i + 1) fuel

/-! ### Ordered key-value store

`RocksDBStorageAdapter` runs over `RocksDBEngine`, a thin wrapper around
RocksDB (an external ordered byte store).  The model is a sorted
association list from string keys to typed values: `write` is
insert-or-replace, `read_prefix` returns the stored `(key, value)` pairs
whose key starts with the prefix, in ascending key order, and an atomic
`WriteBatch` is a left fold of puts.  Values are stored typed rather than
serialized: `rocksdb_engine`'s `read::<T>` serializes with `serde_json`,
which is injective on these types, so a typed read models "deserialize,
failing on a value of the wrong type". -/

/-- A record header entry (`metadata_struct::adapter::record::Header`;
the struct is constructed field-by-field in the adapter's test suite,
which fixes its shape). -/
structure Header where
  name : String
  value : String
deriving DecidableEq, Repr

/-- The `metadata_struct::adapter::record::Record` struct, with the
fields the storage adapter reads and writes (`offset`, `header`, `key`,
`data`, `tags`, `timestamp`, `crc_num`); `data` is the payload bytes.
`offset` and `timestamp` are `u64` in the source. -/
structure Record where
  offset : Option Nat
  header : List Header
  key : String
  data : List Nat
  tags : List String
  timestamp : Nat
  crc_num : Nat
deriving DecidableEq, Repr

/-- The `ShardInfo` struct of `storage-adapter/src/storage.rs`
(namespace, shard name, replica count — the fields the adapter stores
and its tests construct). -/
structure ShardInfo where
  namespace_ : String
  shard_name : String
  replica_num : Nat
deriving DecidableEq, Repr

/-- The `ShardOffset` struct; the adapter fills only `offset` (the other
fields are `Default::default()` and are never read on these paths). -/
structure ShardOffset where
  offset : Nat
deriving DecidableEq, Repr

/-- Stored values: a `u64` (offset counters and index entries), a
`Record`, or a `ShardInfo`. -/
inductive Value where
  | vnat (n : Nat)
  | vrecord (r : Record)
  | vshard (s : ShardInfo)
deriving DecidableEq, Repr

/-- Byte-wise (here: character-wise, keys are ASCII) lexicographic
strict order on key strings — the order in which RocksDB iterates. -/
def keyLtL : List Char → List Char → Bool
  | [], [] => false
  | [], _ :: _ => true
  | _ :: _, [] => false
  | x :: xs, y :: ys => if x < y then true else if y < x then false else keyLtL xs ys

/-- Key order on strings. -/
def keyLt (a b : String) : Bool := keyLtL a.data b.data

/-- String prefix test (Rust's `str::starts_with` on key strings). -/
def strIsPfx (p s : String) : Bool := p.data.isPrefixOf s.data

/-- The store: an association list sorted strictly by `keyLt`. -/
abbrev Store := List (String × Value)

/-- Point lookup. -/
def storeGet : Store → String → Option Value
  | [], _ => none
  | (k', v') :: rest, k => if k = k' then some v' else storeGet rest k

/-- Insert-or-replace, keeping the list sorted by `keyLt`. -/
def storePut : Store → String → Value → Store
  | [], k, v => [(k, v)]
  | (k', v') :: rest, k, v =>
    if keyLt k k' then (k, v) :: (k', v') :: rest
    else if k = k' then (k, v) :: rest
    else (k', v') :: storePut rest k v

/-- Prefix scan: all entries whose key starts with `p`, in store (= key)
order. -/
def readPfx (st : Store) (p : String) : List (String × Value) :=
  st.filter (fun e => strIsPfx p e.1)

/-- Apply a `WriteBatch` atomically: later puts override earlier ones on
the same key, as in RocksDB. -/
def applyBatch (st : Store) (ops : List (String × Value)) : Store :=
  ops.foldl (fun s e => storePut s e.1 e.2) st

/-- The last binding of key `k` in a batch, if any. -/
def lookupLast (ops : List (String × Value)) (k : String) : Option Value :=
  ops.foldl (fun acc e => if e.1 = k then some e.2 else acc) none

/-! ### Storage adapter (`storage-adapter/src/rocksdb/mod.rs`)

Key layouts are the `format!` strings of the source, rendered with `++`;
`{:020}` is the 20-digit zero-padded decimal rendering `pad20` (exact for
every `u64`, since `2 ^ 64 < 10 ^ 20`). -/

/-- The `k` low-order decimal digits of `n`, most significant first. -/
def padDigits : Nat → Nat → List Char
  | 0, _ => []
  | k + 1, n => Nat.digitChar (n / 10 ^ k) :: padDigits k (n % 10 ^ k)

/-- Rust's `format!("{:020}", n)` for `n < 10 ^ 20` (every `u64`). -/
def pad20 (n : Nat) : String := ⟨padDigits 20 n⟩

/-- `RocksDBStorageAdapter::shard_record_key`. -/
def shardRecordKey (ns shard : String) (off : Nat) : String :=
  "/record/" ++ ns ++ "/" ++ shard ++ "/record/" ++ pad20 off

/-- `RocksDBStorageAdapter::shard_offset_key`. -/
def shardOffsetKey (ns shard : String) : String :=
  "/offset/" ++ ns ++ "/" ++ shard

/-- `RocksDBStorageAdapter::key_offset_key`. -/
def keyOffsetKey (ns shard key : String) : String :=
  "/key/" ++ ns ++ "/" ++ shard ++ "/" ++ key

/-- `RocksDBStorageAdapter::tag_offsets_key`. -/
def tagOffsetsKey (ns shard tag : String) (off : Nat) : String :=
  "/tag/" ++ ns ++ "/" ++ shard ++ "/" ++ tag ++ "/" ++ pad20 off

/-- `RocksDBStorageAdapter::timestamp_offset_key`. -/
def timestampOffsetKey (ns shard : String) (ts off : Nat) : String :=
  "/timestamp/" ++ ns ++ "/" ++ shard ++ "/" ++ pad20 ts ++ "/" ++ pad20 off

/-- `RocksDBStorageAdapter::timestamp_offset_key_prefix`. -/
def timestampOffsetKeyPfx (ns shard : String) : String :=
  "/timestamp/" ++ ns ++ "/" ++ shard ++ "/"

/-- `RocksDBStorageAdapter::timestamp_offset_key_search_prefix`. -/
def timestampOffsetKeySearchPfx (ns shard : String) (ts : Nat) : String :=
  "/timestamp/" ++ ns ++ "/" ++ shard ++ "/" ++ pad20 ts ++ "/"

/-- `RocksDBStorageAdapter::shard_info_key`. -/
def shardInfoKey (ns shard : String) : String :=
  "/shard/" ++ ns ++ "/" ++ shard

/-- The combined `{ns}/{shard}` infix every per-shard key factors
through. -/
def pKey (ns shard : String) : String := ns ++ "/" ++ shard

/-- `shardOffsetKey` parameterized by the combined infix. -/
def offsetKeyP (p : String) : String := "/offset/" ++ p

/-- `shardRecordKey` parameterized by the combined infix. -/
def recordKeyP (p : String) (off : Nat) : String :=
  "/record/" ++ p ++ "/record/" ++ pad20 off

/-- `timestampOffsetKey` parameterized by the combined infix. -/
def tsKeyP (p : String) (ts off : Nat) : String :=
  "/timestamp/" ++ p ++ "/" ++ pad20 ts ++ "/" ++ pad20 off

/-- `db.read::<u64>`: absent keys give `None`, a stored `u64` gives
`Some`, a value of any other type fails to deserialize. -/
def readU64 (st : Store) (k : String) : Except String (Option Nat) :=
  match storeGet st k with
  | none => .ok none
  | some (.vnat n) => .ok (some n)
  | some _ => .error "failed to deserialize u64"

/-- `StorageAdapter::create_shard`: fails if the shard's offset key
already exists, otherwise stores offset `0` and the shard config. -/
def create_shard (st : Store) (shard : ShardInfo) : Except String Store := do
  let existing ← readU64 st (shardOffsetKey shard.namespace_ shard.shard_name)
  if existing.isSome then
    .error "shard already exists"
  else
    .ok (storePut
          (storePut st (shardOffsetKey shard.namespace_ shard.shard_name)
            (.vnat 0))
          (shardInfoKey shard.namespace_ shard.shard_name) (.vshard shard))

/-- `RocksDBStorageAdapter::ensure_shard_exists`. -/
def ensure_shard_exists (st : Store) (ns shard : String) :
    Except String Unit := do
  let existing ← readU64 st (shardOffsetKey ns shard)
  if existing.isNone then .error "shard not exists" else .ok ()

/-- The four index puts `thread_batch_write` performs for one message
assigned offset `off`, in source order: primary record (with the offset
stamped into it), key index (if the key is non-empty), tag indexes, and
timestamp index. -/
def msgOps (ns shard : String) (off : Nat) (msg : Record) :
    List (String × Value) :=
  ((shardRecordKey ns shard off, Value.vrecord { msg with offset := some off }) ::
      (if msg.key = "" then []
       else [(keyOffsetKey ns shard msg.key, Value.vnat off)])) ++
    msg.tags.map (fun tag => (tagOffsetsKey ns shard tag off, Value.vnat off)) ++
    [(timestampOffsetKey ns shard msg.timestamp off, Value.vnat off)]

/-- The message loop of `thread_batch_write`, starting at offset `c`:
returns the accumulated batch puts, the assigned offsets (`offset_res`),
and the final value of `start_offset`. -/
def writeLoop (ns shard : String) : Nat → List Record →
    List (String × Value) × List Nat × Nat
  | c, [] => ([], [], c)
  | c, msg :: rest =>
    let tail := writeLoop ns shard (c + 1) rest
    (msgOps ns shard c msg ++ tail.1, c :: tail.2.1, tail.2.2)

/-- `RocksDBStorageAdapter::thread_batch_write`: read the shard's offset
counter (error if the shard does not exist), assign consecutive offsets
to the messages, and commit one atomic batch of all record/index puts
plus the updated counter.  Offsets are `u64` in the source; the model
uses `Nat`. -/
def thread_batch_write (st : Store) (ns shard : String)
    (messages : List Record) : Except String (Store × List Nat) := do
  let offset? ← readU64 st (shardOffsetKey ns shard)
  match offset? with
  | none => .error "shard not exists"
  | some offset =>
    let lp := writeLoop ns shard offset messages
    .ok (applyBatch st (lp.1 ++ [(shardOffsetKey ns shard, Value.vnat lp.2.2)]),
         lp.2.1)

/-- `StorageAdapter::batch_write`: `ensure_shard_exists`, then the write
goes through the per-shard writer thread, which serializes batches and
runs `thread_batch_write`; the rendezvous adds no state change of its
own. -/
def batch_write (st : Store) (ns shard : String) (messages : List Record) :
    Except String (Store × List Nat) := do
  let _ ← ensure_shard_exists st ns shard
  thread_batch_write st ns shard messages

/-- `StorageAdapter::write` is `batch_write` of the singleton batch,
returning the first assigned offset. -/
def write_one (st : Store) (ns shard : String) (message : Record) :
    Except String (Store × Nat) := do
  let res ← batch_write st ns shard [message]
  match res.2.head? with
  | some off => .ok (res.1, off)
  | none => .error "Empty offset result from write"

/-- The `ReadConfig` struct (`max_record_num`, `max_size`, both `u64`). -/
structure ReadConfig where
  max_record_num : Nat
  max_size : Nat
deriving DecidableEq

/-- The scan loop of `read_by_offset`: up to `fuel` iterations starting
at offset `i` with `total` bytes read so far; stops at the first missing
offset or when the next record would push the total size over
`maxSize`.  (`total_size` is `u64` in the source; the claims about reads
are stated for total sizes within the `u64` range, which any realizable
record set satisfies.) -/
def readLoop (st : Store) (ns shard : String) (maxSize : Nat) :
    Nat → Nat → Nat → Except String (List Record)
  | _, 0, _ => .ok []
  | i, fuel + 1, total =>
    match storeGet st (shardRecordKey ns shard i) with
    | none => .ok []
    | some (.vrecord r) =>
      let record_bytes := r.data.length
      if maxSize < total + record_bytes then .ok []
      else do
        let rest ← readLoop st ns shard maxSize (i + 1) fuel
          (total + record_bytes)
        .ok (r :: rest)
    | some _ => .error "failed to deserialize record"

/-- `StorageAdapter::read_by_offset`: contiguous scan over
`offset..offset.saturating_add(max_record_num)` until a limit is hit. -/
def read_by_offset (st : Store) (ns shard : String) (offset : Nat)
    (cfg : ReadConfig) : Except String (List Record) := do
  let _ ← ensure_shard_exists st ns shard
  readLoop st ns shard cfg.max_size offset
    (satAdd64 offset cfg.max_record_num - offset) 0

/-- Rust's `str::split('/')`, on the character list of a key. -/
def splitSlash (s : List Char) : List (List Char) :=
  s.foldr
    (fun c acc =>
      if c = '/' then [] :: acc
      else
        match acc with
        | h :: t => (c :: h) :: t
        | [] => [[c]])
    [[]]

/-- Strip one optional leading `+` sign, as `u64::from_str` does. -/
def stripPlus (s : List Char) : List Char :=
  match s with
  | c :: rest => if c = '+' then rest else c :: rest
  | [] => []

/-- Rust's `str::parse::<u64>()`: an optional `+` sign followed by at
least one decimal digit, rejecting values outside the `u64` range. -/
def parseU64 (s : List Char) : Option Nat :=
  let digits := stripPlus s
  if digits ≠ [] ∧ digits.all Char.isDigit then
    let v := digits.foldl (fun a c => a * 10 + (c.toNat - 48)) 0
    if v < U64MOD then some v else none
  else none

/-- The fallback scan of `get_offset_by_timestamp`: walk the shard's
timestamp-index entries in key order; for each key with at least five
`/`-separated parts whose fifth part parses as a `u64` timestamp
`≥ timestamp`, deserialize its stored offset and stop. -/
def tsScan (timestamp : Nat) : List (String × Value) →
    Except String (Option ShardOffset)
  | [] => .ok none
  | (key, v) :: rest =>
    let parts := splitSlash key.data
    match parts[4]? with
    | some p4 =>
      match parseU64 p4 with
      | some t =>
        if timestamp ≤ t then
          match v with
          | .vnat off => .ok (some ⟨off⟩)
          | _ => .error "failed to deserialize u64"
        else tsScan timestamp rest
      | none => tsScan timestamp rest
    | none => tsScan timestamp rest

/-- `StorageAdapter::get_offset_by_timestamp`: first look for an entry
with exactly the requested timestamp (prefix scan on the search prefix,
taking the first hit), then fall back to scanning the shard's whole
timestamp index forward. -/
def get_offset_by_timestamp (st : Store) (ns shard : String)
    (timestamp : Nat) : Except String (Option ShardOffset) := do
  let _ ← ensure_shard_exists st ns shard
  let raw := readPfx st (timestampOffsetKeySearchPfx ns shard timestamp)
  match raw.head? with
  | some e =>
    match e.2 with
    | .vnat off => .ok (some ⟨off⟩)
    | _ => .error "failed to deserialize u64"
  | none => tsScan timestamp (readPfx st (timestampOffsetKeyPfx ns shard))

/-- The states reachable from an empty store by successful `create_shard`
and `thread_batch_write` operations (a `write` is the singleton batch;
a `batch_write` call that timed out at the rendezvous still applies the
same `thread_batch_write` state change).  The two side conditions record
that the source operates on `u64` values: every message timestamp fits in
a `u64` (it is one in the source), and a run never overflows the `u64`
offset counter (any run short enough to be executed satisfies this, as
each record costs at least one write). -/
inductive Reachable : Store → Prop where
  | empty : Reachable []
  | create {st st' : Store} {info : ShardInfo} :
      Reachable st → create_shard st info = .ok st' → Reachable st'
  | write {st st' : Store} {ns shard : String} {msgs : List Record}
      {offs : List Nat} :
      Reachable st →
      (∀ m ∈ msgs, m.timestamp < U64MOD) →
      (∀ c, storeGet st (shardOffsetKey ns shard) = some (.vnat c) →
        c + msgs.length < U64MOD) →
      thread_batch_write st ns shard msgs = .ok (st', offs) →
      Reachable st'

/-- The store invariant maintained by all reachable states.  `p` ranges
over combined `{ns}/{shard}` infixes (keys built from different
`(ns, shard)` pairs coincide exactly when their infixes do, so the
invariant is stated at infix level). -/
structure StoreInv (st : Store) : Prop where
  sorted : st.Pairwise (fun a b => keyLt a.1 b.1 = true)
  counterVal : ∀ p v, storeGet st (offsetKeyP p) = some v →
    ∃ c, v = .vnat c ∧ c < U64MOD
  recBelow : ∀ p c, storeGet st (offsetKeyP p) = some (.vnat c) →
    ∀ i, i < c → ∃ r, storeGet st (recordKeyP p i) = some (.vrecord r) ∧
      r.offset = some i ∧ r.timestamp < U64MOD
  recAbove : ∀ p c, storeGet st (offsetKeyP p) = some (.vnat c) →
    ∀ i, c ≤ i → storeGet st (recordKeyP p i) = none
  recNone : ∀ p, storeGet st (offsetKeyP p) = none →
    ∀ i, storeGet st (recordKeyP p i) = none
  tsSound : ∀ p t o v, storeGet st (tsKeyP p t o) = some v →
    ∃ r, storeGet st (recordKeyP p o) = some (.vrecord r) ∧
      r.timestamp = t ∧ v = .vnat o ∧ t < U64MOD ∧ o < U64MOD
  tsComplete : ∀ p o r, storeGet st (recordKeyP p o) = some (.vrecord r) →
    storeGet st (tsKeyP p r.timestamp o) = some (.vnat o)

/-- The expected result of reading back a batch written starting at
offset `o`: the input records in order, with consecutive offsets stamped
in. -/
def withOffsets (o : Nat) : List Record → List Record
  | [] => []
  | msg :: rest => { msg with offset := some o } :: withOffsets (o + 1) rest

/-! ### Concrete fixtures used by witnesses -/

/-- A concrete shard config. -/
def wInfo : ShardInfo := { namespace_ := "n", shard_name := "s", replica_num := 1 }

/-- A concrete record (no key, no tags). -/
def wMsg1 : Record :=
  { offset := none, header := [], key := "", data := [1, 2], tags := [],
    timestamp := 10, crc_num := 0 }

/-- A second concrete record with an earlier timestamp. -/
def wMsg2 : Record :=
  { offset := none, header := [], key := "", data := [3], tags := [],
    timestamp := 5, crc_num := 0 }

/-- The store after `create_shard [] wInfo`. -/
def wStore1 : Store :=
  [("/offset/n/s", Value.vnat 0), ("/shard/n/s", Value.vshard wInfo)]

/-- The store after additionally `batch_write "n" "s" [wMsg1, wMsg2]`. -/
def wStore2 : Store :=
  [("/offset/n/s", Value.vnat 2),
   ("/record/n/s/record/00000000000000000000",
     Value.vrecord { wMsg1 with offset := some 0 }),
   ("/record/n/s/record/00000000000000000001",
     Value.vrecord { wMsg2 with offset := some 1 }),
   ("/shard/n/s", Value.vshard wInfo),
   ("/timestamp/n/s/00000000000000000005/00000000000000000001", Value.vnat 1),
   ("/timestamp/n/s/00000000000000000010/00000000000000000000", Value.vnat 0)]

/-! ## Theorems -/

/-- Claim C9: the enqueue delay of `DelayTaskManager::enqueue_task` (and
hence of `create_task`, which calls it unconditionally) is total in the
target time: when `delay_target_time ≤ current_time` the delay is `0`
rather than an unsigned subtraction, so an already-due task is enqueued
as immediately due and no `u64` underflow can occur; the subtraction
`delay_target_time - current_time` is taken only under the guard
`delay_target_time > current_time`, where it is exact. -/
theorem claim_C9 (target now : Nat) :
    (target ≤ now → enqueueDelaySecs target now = 0) ∧
    (now < target →
      enqueueDelaySecs target now = target - now ∧
      now + enqueueDelaySecs target now = target ∧
      0 < enqueueDelaySecs target now) := by
  refine ⟨fun h => ?_, fun h => ?_⟩
  · simp only [enqueueDelaySecs]
    rw [if_neg (by omega)]
  · simp only [enqueueDelaySecs]
    rw [if_pos (by omega)]
    omega

/-- Witness for C9 at concrete inputs. -/
theorem claim_C9_witness :
    enqueueDelaySecs 5 7 = 0 ∧ enqueueDelaySecs 9 4 = 5 :=
  ⟨(claim_C9 5 7).1 (by decide), ((claim_C9 9 4).2 (by decide)).1⟩

/-- Claim C10: `RaftGroup::new` clamps the configured shard count with
`group_num.max(1)`, so every constructed group owns at least one shard,
the modulus used by `route_shard` is never zero (in particular a
configured count of `0` yields one shard), and `route_shard` always
produces the name of a shard that was inserted into `raft_group`. -/
theorem claim_C10 (name : String) (n : Nat) :
    (RaftGroup.new name n).group_num = max n 1 ∧
    1 ≤ (RaftGroup.new name n).group_num ∧
    (RaftGroup.new name n).raft_group.length = max n 1 ∧
    (RaftGroup.new name 0).group_num = 1 ∧
    ∀ key, (RaftGroup.new name n).route_shard key ∈
      (RaftGroup.new name n).raft_group := by
  refine ⟨rfl, Nat.le_max_right n 1, by simp [RaftGroup.new], rfl, ?_⟩
  intro key
  simp only [RaftGroup.new, RaftGroup.route_shard, List.mem_map]
  exact ⟨defaultHashStr key % max n 1,
    List.mem_range.mpr (Nat.mod_lt _ (Nat.lt_of_lt_of_le Nat.zero_lt_one
      (Nat.le_max_right n 1))), rfl⟩

/-- Claim C5 counterexample: a recovered task whose `delay_target_time`
equals `now` is *not* executed immediately — `process_delay_task_record`
uses the strict comparison `task.delay_target_time < now`, so the
boundary case is enqueued (`Recovered`), contradicting the claim that
`delay_target_time ≤ now` executes via the immediate path. -/
theorem claim_C5_cex :
    processDelayTaskRecord
      (some { task_id := "t1", data := .MQTTSessionExpire "c1",
              delay_target_time := 5, create_time := 0, persistent := true }) 5
      = .Recovered ∧
    RecoverResult.Recovered ≠ RecoverResult.Expired := by
  exact ⟨rfl, by decide⟩

/-- Claim C5 (amended): a recovered task is executed immediately exactly
when `delay_target_time < now`; every task with `delay_target_time ≥ now`
— including the boundary case `delay_target_time = now` — is enqueued,
the boundary case with remaining delay `0`. -/
theorem claim_C5 (task : DelayTask) (now : Nat) :
    (processDelayTaskRecord (some task) now = .Expired ↔
      task.delay_target_time < now) ∧
    (processDelayTaskRecord (some task) now = .Recovered ↔
      now ≤ task.delay_target_time) ∧
    (task.delay_target_time = now →
      processDelayTaskRecord (some task) now = .Recovered ∧
      enqueueDelaySecs task.delay_target_time now = 0) := by
  simp only [processDelayTaskRecord]
  by_cases h : task.delay_target_time < now
  · rw [if_pos h]
    refine ⟨by simp [h], ⟨fun hh => absurd hh (by decide),
      fun hh => absurd h (Nat.not_lt.mpr hh)⟩, fun he => absurd h (by omega)⟩
  · rw [if_neg h]
    refine ⟨by simp [h], by simp; omega, fun he => ⟨rfl, ?_⟩⟩
    simp only [enqueueDelaySecs]
    rw [if_neg (by omega)]

/-- Witness for C5 (amended) at a concrete boundary input. -/
theorem claim_C5_witness :
    processDelayTaskRecord
      (some { task_id := "t2", data := .MQTTLastwillExpire "c2",
              delay_target_time := 9, create_time := 0, persistent := true }) 9
      = .Recovered ∧
    enqueueDelaySecs 9 9 = 0 :=
  (claim_C5 { task_id := "t2", data := .MQTTLastwillExpire "c2",
              delay_target_time := 9, create_time := 0, persistent := true } 9).2.2
    rfl

/-- Claim C4 counterexample: on a two-shard group, a write with the empty
routing key is routed to shard index 1, not 0 — `route_shard` has no
empty-key special case, and `DefaultHasher` (SipHash-1-3 with zero keys)
hashes `""` to `0x30406ea523c53def`, which is odd. -/
theorem claim_C4_cex :
    (RaftGroup.new "offset" 2).route_shard "" = raftShardName "offset" 1 ∧
    raftShardName "offset" 1 ≠ raftShardName "offset" 0 := by
  exact ⟨by decide, by decide⟩

/-- Claim C4 (amended): for every group of size `N ≥ 1`, a write with the
empty routing key is routed deterministically to shard index
`hash("") mod N` where `hash` is `DefaultHasher` — not to shard 0 in
general.  Only for a single-shard group (such as `metadata`, with
`N = 1`) does the empty key route to shard 0. -/
theorem claim_C4 (name : String) (n : Nat) (h : 1 ≤ n) :
    (RaftGroup.new name n).route_shard ""
      = raftShardName name (defaultHashStr "" % n) ∧
    (n = 1 → (RaftGroup.new name n).route_shard "" = raftShardName name 0) := by
  have hmax : max n 1 = n := Nat.max_eq_left h
  constructor
  · simp [RaftGroup.new, RaftGroup.route_shard, hmax]
  · intro h1
    subst h1
    simp [RaftGroup.new, RaftGroup.route_shard, Nat.mod_one]

/-- Witness for C4 (amended) at concrete groups of size 2 and 1. -/
theorem claim_C4_witness :
    (RaftGroup.new "offset" 2).route_shard ""
      = raftShardName "offset" (defaultHashStr "" % 2) ∧
    (RaftGroup.new "metadata" 1).route_shard "" = raftShardName "metadata" 0 :=
  ⟨(claim_C4 "offset" 2 (by decide)).1,
   (claim_C4 "metadata" 1 (by decide)).2 rfl⟩

/-- Claim C2: with `W = WORKER_THREAD_NUM = 10` workers, the router of
`spawn_router` sends every message without partition key (equivalently,
every `UpdateCache`) to worker 0 and every message with partition key
`key` to worker `1 + (hash(key) mod (W - 1))`; the index is always below
`W`, and two messages carrying the same `client_id` (a `DeleteSession`
and a `SendLastWillMessage`) get the same worker index. -/
theorem claim_C2 :
    (∀ u : UpdateCacheData,
      routerWorkerIndex WORKER_THREAD_NUM (.UpdateCache u) = 0) ∧
    (∀ data : NodeCallData, data.partition_key = none →
      routerWorkerIndex WORKER_THREAD_NUM data = 0) ∧
    (∀ (data : NodeCallData) (key : String), data.partition_key = some key →
      routerWorkerIndex WORKER_THREAD_NUM data
        = 1 + defaultHashStr key % (WORKER_THREAD_NUM - 1)) ∧
    (∀ data : NodeCallData,
      routerWorkerIndex WORKER_THREAD_NUM data < WORKER_THREAD_NUM) ∧
    (∀ (client_id : String) (item : LastWillMessageItem),
      item.client_id = client_id →
      routerWorkerIndex WORKER_THREAD_NUM (.DeleteSession client_id)
        = routerWorkerIndex WORKER_THREAD_NUM (.SendLastWillMessage item)) := by
  refine ⟨fun u => rfl, fun data h => ?_, fun data key h => ?_, fun data => ?_,
    fun client_id item h => ?_⟩
  · simp [routerWorkerIndex, h]
  · simp only [routerWorkerIndex, h]
    omega
  · match hp : data.partition_key with
    | none => simp [routerWorkerIndex, hp, WORKER_THREAD_NUM]
    | some key =>
      simp only [routerWorkerIndex, hp]
      have : defaultHashStr key % (WORKER_THREAD_NUM - 1) < WORKER_THREAD_NUM - 1 :=
        Nat.mod_lt _ (by decide)
      omega
  · simp [routerWorkerIndex, NodeCallData.partition_key, h]

/-- Witness for C2 at a concrete client id. -/
theorem claim_C2_witness :
    routerWorkerIndex WORKER_THREAD_NUM (.DeleteSession "c1")
      = 1 + defaultHashStr "c1" % (WORKER_THREAD_NUM - 1) ∧
    routerWorkerIndex WORKER_THREAD_NUM (.DeleteSession "c1")
      = routerWorkerIndex WORKER_THREAD_NUM
          (.SendLastWillMessage { client_id := "c1", last_will_message := [] }) :=
  ⟨claim_C2.2.2.1 (.DeleteSession "c1") "c1" rfl,
   claim_C2.2.2.2.2 "c1" { client_id := "c1", last_will_message := [] } rfl⟩

/-- One poll evaluation returns `Some(true)` exactly on a non-empty map
whose shards are all ready. -/
lemma checkMetaOnce_eq_some_true (m : List (String × MetaServiceStatus)) :
    checkMetaOnce m = some true ↔ m ≠ [] ∧ ∀ p ∈ m, p.2.is_ready = true := by
  simp only [checkMetaOnce]
  split_ifs with h1 h2
  · simp only [List.isEmpty_iff] at h1
    simp [h1]
  · simp only [List.isEmpty_iff] at h1 h2
    have hall : ∀ p ∈ m, p.2.is_ready = true := by
      intro p hp
      by_contra hnp
      have hmem : p ∈ m.filter (fun p => !p.2.is_ready) :=
        List.mem_filter.mpr ⟨hp, by simp [hnp]⟩
      rw [h2] at hmem
      exact absurd hmem (List.not_mem_nil p)
    exact ⟨fun _ => ⟨h1, hall⟩, fun _ => rfl⟩
  · simp only [List.isEmpty_iff] at h1 h2
    constructor
    · intro hh
      exact absurd hh (by simp)
    · rintro ⟨hne, hall⟩
      exfalso
      apply h2
      rw [List.filter_eq_nil_iff]
      intro a ha
      simp [hall a ha]

/-- `MetaServiceStatus::is_ready` unfolded to its two conditions. -/
lemma is_ready_iff (s : MetaServiceStatus) :
    s.is_ready = true ↔
      ((∃ fields, s.running_state = .obj fields ∧
          jsonContainsKey fields "Ok" = true) ∧
        s.current_leader ≠ 0) := by
  unfold MetaServiceStatus.is_ready
  cases hrs : s.running_state <;>
    simp [JsonValue.asObject?, hrs, Bool.and_eq_true, bne_iff_ne]

/-- The polling loop of `check_meta_service_status` returns at index `k`
only if the readiness predicate holds at poll `k` and failed at every
earlier inspected poll. -/
lemma checkLoopFrom_spec
    (polls : Nat → Except String (List (String × MetaServiceStatus))) :
    ∀ (fuel i k : Nat), checkLoopFrom polls i fuel = some k →
      i ≤ k ∧ (∃ m, polls k = .ok m ∧ checkMetaOnce m = some true) ∧
      ∀ j, i ≤ j → j < k → ∀ m, polls j = .ok m →
        checkMetaOnce m ≠ some true := by
  intro fuel
  induction fuel with
  | zero =>
    intro i k h
    exact absurd h (by simp [checkLoopFrom])
  | succ n ih =>
    intro i k h
    rw [checkLoopFrom] at h
    cases hp : polls i with
    | ok m =>
      rw [hp] at h
      replace h : (if checkMetaOnce m = some true then some i
          else checkLoopFrom polls (i + 1) n) = some k := h
      by_cases hc : checkMetaOnce m = some true
      · rw [if_pos hc] at h
        injection h with h
        subst h
        exact ⟨Nat.le_refl i, ⟨m, hp, hc⟩,
          fun j hij hjk _ _ => absurd (Nat.lt_of_le_of_lt hij hjk)
            (Nat.lt_irrefl i)⟩
      · rw [if_neg hc] at h
        obtain ⟨hik, hex, hall⟩ := ih (i + 1) k h
        refine ⟨by omega, hex, fun j hij hjk m' hm' => ?_⟩
        rcases Nat.eq_or_lt_of_le hij with hij' | hlt
        · subst hij'
          rw [hp] at hm'
          injection hm' with hm'
          subst hm'
          exact hc
        · exact hall j (by omega) hjk m' hm'
    | error e =>
      rw [hp] at h
      replace h : checkLoopFrom polls (i + 1) n = some k := h
      obtain ⟨hik, hex, hall⟩ := ih (i + 1) k h
      refine ⟨by omega, hex, fun j hij hjk m' hm' => ?_⟩
      rcases Nat.eq_or_lt_of_le hij with hij' | hlt
      · subst hij'
        rw [hp] at hm'
        exact absurd hm' (by simp)
      · exact hall j (by omega) hjk m' hm'

/-- Claim C7: the cluster-readiness check succeeds iff the parsed
shard-status map is non-empty and every shard in it is ready, where a
shard is ready exactly when its `running_state` is an object containing
the key `"Ok"` and its `current_leader` is non-zero; the polling loop of
`check_meta_service_status` returns only at a poll where this predicate
holds, with no earlier poll satisfying it. -/
theorem claim_C7 :
    (∀ m : List (String × MetaServiceStatus),
      checkMetaOnce m = some true ↔ m ≠ [] ∧ ∀ p ∈ m, p.2.is_ready = true) ∧
    (∀ s : MetaServiceStatus,
      s.is_ready = true ↔
        ((∃ fields, s.running_state = .obj fields ∧
            jsonContainsKey fields "Ok" = true) ∧
          s.current_leader ≠ 0)) ∧
    (∀ polls fuel i k, checkLoopFrom polls i fuel = some k →
      i ≤ k ∧ (∃ m, polls k = .ok m ∧ m ≠ [] ∧ ∀ p ∈ m, p.2.is_ready = true) ∧
      ∀ j, i ≤ j → j < k → ∀ m, polls j = .ok m →
        ¬(m ≠ [] ∧ ∀ p ∈ m, p.2.is_ready = true)) := by
  refine ⟨checkMetaOnce_eq_some_true, is_ready_iff, ?_⟩
  intro polls fuel i k h
  obtain ⟨hik, ⟨m, hm, hc⟩, hall⟩ := checkLoopFrom_spec polls fuel i k h
  exact ⟨hik, ⟨m, hm, (checkMetaOnce_eq_some_true m).mp hc⟩,
    fun j hij hjk m' hm' hr => hall j hij hjk m' hm'
      ((checkMetaOnce_eq_some_true m').mpr hr)⟩

/-- Witness for C7: a concrete ready map, a concrete unready shard, and a
concrete polling sequence that becomes ready at index 1. -/
theorem claim_C7_witness :
    (checkMetaOnce
        [("metadata_0",
          { running_state := .obj [("Ok", .null)], current_leader := 3 })]
      = some true ↔
      ([("metadata_0",
          ({ running_state := .obj [("Ok", .null)], current_leader := 3 }
            : MetaServiceStatus))] ≠ [] ∧
        ∀ p ∈ [("metadata_0",
          ({ running_state := .obj [("Ok", .null)], current_leader := 3 }
            : MetaServiceStatus))], p.2.is_ready = true)) ∧
    (({ running_state := .obj [("Ok", .null)], current_leader := 0 }
        : MetaServiceStatus).is_ready = true ↔
      ((∃ fields,
          (JsonValue.obj [("Ok", .null)]) = .obj fields ∧
          jsonContainsKey fields "Ok" = true) ∧ (0 : Nat) ≠ 0)) :=
  ⟨claim_C7.1 _, claim_C7.2.1 _⟩

/-- Claim C8 counterexample: when every attempt fails, `retry_rpc` invokes
the RPC 3 times but sleeps only twice — 50 ms and 100 ms; the claimed
sleep sequence "50 ms then 100 ms then 200 ms on successive failures"
never occurs, because after the third (final) failed attempt the helper
returns without sleeping. -/
theorem claim_C8_cex :
    retry_rpc (fun _ => false) = (3, [50, 100]) ∧
    ([50, 100] : List Nat) ≠ [50, 100, 200] := by
  exact ⟨rfl, by decide⟩

/-- Claim C8 (amended): `retry_rpc` invokes the underlying RPC at least
once and at most `RPC_MAX_RETRIES = 3` times; the `j`-th sleep (0-based,
performed after failed attempt `j + 1 < 3`) is exactly
`RPC_RETRY_BASE_MS * 2 ^ j` — i.e. the sleeps on successive failures are
50 ms then 100 ms, and a 200 ms sleep never occurs; and `retry_rpc`
returns `()` on every outcome sequence, never propagating an error. -/
theorem claim_C8 (results : Nat → Bool) :
    1 ≤ (retry_rpc results).1 ∧
    (retry_rpc results).1 ≤ RPC_MAX_RETRIES ∧
    (retry_rpc results).2
      = (List.range ((retry_rpc results).1 - 1)).map
          (fun j => RPC_RETRY_BASE_MS * 2 ^ j) ∧
    (200 : Nat) ∉ (retry_rpc results).2 := by
  cases hb1 : results 1 <;> cases hb2 : results 2 <;> cases hb3 : results 3 <;>
    simp [retry_rpc, retryRun, RPC_MAX_RETRIES, RPC_RETRY_BASE_MS,
      retryBackoffMs, satMul64, U64MOD, hb1, hb2, hb3] <;>
    decide

/-! ### Key-order lemmas -/

lemma keyLtL_irrefl : ∀ l : List Char, keyLtL l l = false
  | [] => rfl
  | x :: xs => by simp [keyLtL, lt_irrefl, keyLtL_irrefl xs]

lemma keyLtL_trans : ∀ {a b c : List Char},
    keyLtL a b = true → keyLtL b c = true → keyLtL a c = true
  | [], _ :: _, _ :: _, _, _ => rfl
  | a :: as, b :: bs, c :: cs, h1, h2 => by
    simp only [keyLtL] at h1 h2 ⊢
    rcases lt_trichotomy a b with hab | hab | hab
    · rcases lt_trichotomy b c with hbc | hbc | hbc
      · rw [if_pos (lt_trans hab hbc)]
      · subst hbc; rw [if_pos hab]
      · rw [if_pos hbc, if_neg (not_lt_of_gt hbc)] at h2
        exact absurd h2 (by simp)
    · subst hab
      rw [if_neg (lt_irrefl a), if_neg (lt_irrefl a)] at h1
      rcases lt_trichotomy a c with hac | hac | hac
      · rw [if_pos hac]
      · subst hac
        rw [if_neg (lt_irrefl a), if_neg (lt_irrefl a)] at h2 ⊢
        exact keyLtL_trans h1 h2
      · rw [if_neg (not_lt_of_gt hac), if_pos hac] at h2
        exact absurd h2 (by simp)
    · rw [if_neg (not_lt_of_gt hab), if_pos hab] at h1
      exact absurd h1 (by simp)

lemma keyLtL_total : ∀ a b : List Char,
    a ≠ b → keyLtL a b = true ∨ keyLtL b a = true
  | [], [], h => absurd rfl h
  | [], _ :: _, _ => Or.inl rfl
  | _ :: _, [], _ => Or.inr rfl
  | a :: as, b :: bs, h => by
    rcases lt_trichotomy a b with hab | hab | hab
    · exact Or.inl (by simp [keyLtL, hab])
    · subst hab
      have hne : as ≠ bs := fun he => h (by rw [he])
      rcases keyLtL_total as bs hne with h' | h'
      · exact Or.inl (by simp [keyLtL, lt_irrefl, h'])
      · exact Or.inr (by simp [keyLtL, lt_irrefl, h'])
    · exact Or.inr (by simp [keyLtL, hab])

lemma keyLt_irrefl (a : String) : keyLt a a = false := keyLtL_irrefl a.data

lemma keyLt_trans {a b c : String} (h1 : keyLt a b = true)
    (h2 : keyLt b c = true) : keyLt a c = true := keyLtL_trans h1 h2

lemma keyLt_total {a b : String} (h : a ≠ b) :
    keyLt a b = true ∨ keyLt b a = true :=
  keyLtL_total a.data b.data (fun he => h (String.ext he))

lemma keyLt_asymm {a b : String} (h : keyLt a b = true) : keyLt b a = false := by
  by_contra hc
  have hba : keyLt b a = true := by
    cases hh : keyLt b a
    · exact absurd hh hc
    · rfl
  have : keyLt a a = true := keyLt_trans h hba
  rw [keyLt_irrefl] at this
  exact absurd this (by simp)

lemma keyLt_ne {a b : String} (h : keyLt a b = true) : a ≠ b := by
  intro he
  subst he
  rw [keyLt_irrefl] at h
  exact absurd h (by simp)

/-! ### Store lemmas -/

lemma storeGet_put : ∀ (st : Store) (k : String) (v : Value) (k' : String),
    storeGet (storePut st k v) k' = if k' = k then some v else storeGet st k'
  | [], k, v, k' => by simp [storePut, storeGet]
  | (k₀, v₀) :: rest, k, v, k' => by
    simp only [storePut]
    by_cases h1 : keyLt k k₀
    · rw [if_pos h1]
      by_cases h2 : k' = k
      · subst h2; simp [storeGet]
      · simp [storeGet, h2]
    · rw [if_neg h1]
      by_cases h2 : k = k₀
      · subst h2
        rw [if_pos rfl]
        by_cases h3 : k' = k
        · subst h3; simp [storeGet]
        · simp [storeGet, h3]
      · rw [if_neg h2]
        by_cases h3 : k' = k₀
        · subst h3
          have hne : ¬k' = k := fun he => h2 he.symm
          simp [storeGet, hne]
        · simp only [storeGet, if_neg h3]
          exact storeGet_put rest k v k'

lemma mem_storePut : ∀ {st : Store} {k : String} {v : Value} {x : String × Value},
    x ∈ storePut st k v → x = (k, v) ∨ x ∈ st
  | [], k, v, x, h => by
    simp [storePut] at h
    exact Or.inl h
  | (k₀, v₀) :: rest, k, v, x, h => by
    simp only [storePut] at h
    by_cases h1 : keyLt k k₀
    · rw [if_pos h1] at h
      rcases List.mem_cons.mp h with h' | h'
      · exact Or.inl h'
      · exact Or.inr h'
    · rw [if_neg h1] at h
      by_cases h2 : k = k₀
      · rw [if_pos h2] at h
        rcases List.mem_cons.mp h with h' | h'
        · exact Or.inl h'
        · exact Or.inr (List.mem_cons_of_mem _ h')
      · rw [if_neg h2] at h
        rcases List.mem_cons.mp h with h' | h'
        · exact Or.inr (h' ▸ List.mem_cons_self _ _)
        · rcases mem_storePut h' with h'' | h''
          · exact Or.inl h''
          · exact Or.inr (List.mem_cons_of_mem _ h'')

lemma pairwise_storePut :
    ∀ (st : Store) (k : String) (v : Value),
    st.Pairwise (fun a b => keyLt a.1 b.1 = true) →
    (storePut st k v).Pairwise (fun a b => keyLt a.1 b.1 = true)
  | [], k, v, _ => by simp [storePut]
  | (k₀, v₀) :: rest, k, v, hp => by
    obtain ⟨hhead, htail⟩ := List.pairwise_cons.mp hp
    simp only [storePut]
    by_cases h1 : keyLt k k₀
    · rw [if_pos h1]
      refine List.pairwise_cons.mpr ⟨?_, hp⟩
      intro x hx
      rcases List.mem_cons.mp hx with h' | h'
      · rw [h']
        exact h1
      · exact keyLt_trans h1 (hhead x h')
    · rw [if_neg h1]
      by_cases h2 : k = k₀
      · subst h2
        rw [if_pos rfl]
        exact List.pairwise_cons.mpr ⟨hhead, htail⟩
      · rw [if_neg h2]
        refine List.pairwise_cons.mpr ⟨?_, pairwise_storePut rest k v htail⟩
        intro x hx
        rcases mem_storePut hx with h' | h'
        · rw [h']
          rcases keyLt_total h2 with h'' | h''
          · exact absurd h'' (by simp [h1])
          · exact h''
        · exact hhead x h'

lemma lookupLast_go (k : String) :
    ∀ (ops : List (String × Value)) (acc : Option Value),
    ops.foldl (fun acc e => if e.1 = k then some e.2 else acc) acc
      = (lookupLast ops k).or acc
  | [], acc => by simp [lookupLast]
  | e :: ops, acc => by
    simp only [lookupLast, List.foldl_cons]
    rw [lookupLast_go k ops (if e.1 = k then some e.2 else acc),
        lookupLast_go k ops (if e.1 = k then some e.2 else none)]
    cases lookupLast ops k with
    | some v => simp [Option.or]
    | none =>
      by_cases h : e.1 = k <;> simp [h, Option.or]

lemma lookupLast_append (a b : List (String × Value)) (k : String) :
    lookupLast (a ++ b) k = (lookupLast b k).or (lookupLast a k) := by
  simp only [lookupLast, List.foldl_append]
  exact lookupLast_go k b (lookupLast a k)

lemma lookupLast_eq_none {ops : List (String × Value)} {k : String}
    (h : ∀ e ∈ ops, e.1 ≠ k) : lookupLast ops k = none := by
  induction ops with
  | nil => rfl
  | cons e ops ih =>
    have he : e.1 ≠ k := h e (List.mem_cons_self _ _)
    have : lookupLast (e :: ops) k
        = (lookupLast ops k).or (if e.1 = k then some e.2 else none) := by
      simp only [lookupLast, List.foldl_cons]
      exact lookupLast_go k ops _
    rw [this, ih (fun x hx => h x (List.mem_cons_of_mem _ hx)), if_neg he]
    rfl

lemma lookupLast_cons (e : String × Value) (ops : List (String × Value))
    (k : String) :
    lookupLast (e :: ops) k
      = (lookupLast ops k).or (if e.1 = k then some e.2 else none) := by
  simp only [lookupLast, List.foldl_cons]
  exact lookupLast_go k ops _

lemma storeGet_applyBatch :
    ∀ (ops : List (String × Value)) (st : Store) (k : String),
    storeGet (applyBatch st ops) k = (lookupLast ops k).or (storeGet st k)
  | [], st, k => by simp [applyBatch, lookupLast, Option.or]
  | e :: ops, st, k => by
    simp only [applyBatch, List.foldl_cons]
    have ih := storeGet_applyBatch ops (storePut st e.1 e.2) k
    simp only [applyBatch] at ih
    rw [ih, storeGet_put, lookupLast_cons]
    cases lookupLast ops k with
    | some v => simp [Option.or]
    | none =>
      by_cases h : k = e.1
      · subst h
        simp [Option.or]
      · have h' : e.1 ≠ k := fun he => h he.symm
        simp [Option.or, h, h']

/-! ### Decimal padding lemmas -/

lemma padDigits_length : ∀ K n, (padDigits K n).length = K
  | 0, _ => rfl
  | K + 1, n => by simp [padDigits, padDigits_length K]

lemma digitChar_lt10_ne_slash : ∀ d, d < 10 → Nat.digitChar d ≠ '/' := by decide

lemma digitChar_lt10_isDigit : ∀ d, d < 10 → (Nat.digitChar d).isDigit = true := by
  decide

lemma digitChar_lt10_ne_star : ∀ d, d < 10 → Nat.digitChar d ≠ '*' := by decide

lemma digitChar_inj16 : ∀ a, a < 16 → ∀ b, b < 10 →
    Nat.digitChar a = Nat.digitChar b → a = b := by decide

lemma digitChar_ge16 (d : Nat) (h : 16 ≤ d) : Nat.digitChar d = '*' := by
  unfold Nat.digitChar
  repeat rw [if_neg (by omega)]

/-- `digitChar` is injective when the right argument is a real digit. -/
lemma digitChar_right10 {a b : Nat} (hb : b < 10)
    (h : Nat.digitChar a = Nat.digitChar b) : a = b := by
  by_cases ha : a < 16
  · exact digitChar_inj16 a ha b hb h
  · rw [digitChar_ge16 a (by omega)] at h
    exact absurd h.symm (digitChar_lt10_ne_star b hb)

lemma div_pow_lt10 {n K : Nat} (h : n < 10 ^ (K + 1)) : n / 10 ^ K < 10 :=
  Nat.div_lt_of_lt_mul (by rw [← pow_succ]; exact h)

lemma padDigits_ne_slash : ∀ K n, n < 10 ^ K → ∀ c ∈ padDigits K n, c ≠ '/'
  | 0, _, _, c, hc => absurd hc (List.not_mem_nil c)
  | K + 1, n, h, c, hc => by
    simp only [padDigits, List.mem_cons] at hc
    rcases hc with hc | hc
    · subst hc
      exact digitChar_lt10_ne_slash _ (div_pow_lt10 h)
    · exact padDigits_ne_slash K (n % 10 ^ K)
        (Nat.mod_lt _ (Nat.pow_pos (by omega))) c hc

lemma padDigits_isDigit : ∀ K n, n < 10 ^ K →
    ∀ c ∈ padDigits K n, c.isDigit = true
  | 0, _, _, c, hc => absurd hc (List.not_mem_nil c)
  | K + 1, n, h, c, hc => by
    simp only [padDigits, List.mem_cons] at hc
    rcases hc with hc | hc
    · subst hc
      exact digitChar_lt10_isDigit _ (div_pow_lt10 h)
    · exact padDigits_isDigit K (n % 10 ^ K)
        (Nat.mod_lt _ (Nat.pow_pos (by omega))) c hc

/-- Padded renderings are injective as soon as the right argument is in
range (the left argument is then forced into range by the leading
digit). -/
lemma padDigits_inj : ∀ K a b, b < 10 ^ (K + 1) →
    padDigits (K + 1) a = padDigits (K + 1) b → a = b
  | 0, a, b, hb, h => by
    have h' : Nat.digitChar (a / 10 ^ 0) :: ([] : List Char)
        = Nat.digitChar (b / 10 ^ 0) :: [] := h
    injection h' with h1 _
    have hb' : b / 10 ^ 0 < 10 := by simpa using hb
    have := digitChar_right10 hb' h1
    simpa using this
  | K + 1, a, b, hb, h => by
    have h' : Nat.digitChar (a / 10 ^ (K + 1)) :: padDigits (K + 1) (a % 10 ^ (K + 1))
        = Nat.digitChar (b / 10 ^ (K + 1)) :: padDigits (K + 1) (b % 10 ^ (K + 1)) := h
    injection h' with h1 h2
    have hhead : a / 10 ^ (K + 1) = b / 10 ^ (K + 1) :=
      digitChar_right10 (div_pow_lt10 hb) h1
    have htail : a % 10 ^ (K + 1) = b % 10 ^ (K + 1) :=
      padDigits_inj K (a % 10 ^ (K + 1)) (b % 10 ^ (K + 1))
        (Nat.mod_lt _ (Nat.pow_pos (by omega))) h2
    calc a = 10 ^ (K + 1) * (a / 10 ^ (K + 1)) + a % 10 ^ (K + 1) :=
        (Nat.div_add_mod a _).symm
      _ = 10 ^ (K + 1) * (b / 10 ^ (K + 1)) + b % 10 ^ (K + 1) := by
          rw [hhead, htail]
      _ = b := Nat.div_add_mod b _

lemma pad20_inj {a b : Nat} (hb : b < 10 ^ 20)
    (h : pad20 a = pad20 b) : a = b :=
  padDigits_inj 19 a b hb (congrArg String.data h)

lemma pad20_length (n : Nat) : (pad20 n).data.length = 20 :=
  padDigits_length 20 n

lemma pad20_slength (n : Nat) : (pad20 n).length = 20 :=
  padDigits_length 20 n

/-! ### Key-shape lemmas

Keys of different families never coincide (their first three characters
differ), and within the `offset`, `record`, and `timestamp` families a
key determines its components. -/

lemma ne_of_take3 {s t : String} (h : s.data.take 3 ≠ t.data.take 3) : s ≠ t :=
  fun he => h (by rw [he])

lemma shardOffsetKey_eq (ns shard : String) :
    shardOffsetKey ns shard = offsetKeyP (pKey ns shard) := by
  simp [shardOffsetKey, offsetKeyP, pKey, String.append_assoc]

lemma shardRecordKey_eq (ns shard : String) (off : Nat) :
    shardRecordKey ns shard off = recordKeyP (pKey ns shard) off := by
  simp [shardRecordKey, recordKeyP, pKey, String.append_assoc]

lemma timestampOffsetKey_eq (ns shard : String) (ts off : Nat) :
    timestampOffsetKey ns shard ts off = tsKeyP (pKey ns shard) ts off := by
  simp [timestampOffsetKey, tsKeyP, pKey, String.append_assoc]

lemma offsetKeyP_data (p : String) :
    (offsetKeyP p).data = "/offset/".data ++ p.data := by
  simp [offsetKeyP, String.data_append]

lemma recordKeyP_data (p : String) (off : Nat) :
    (recordKeyP p off).data
      = "/record/".data ++ (p.data ++ ("/record/".data ++ (pad20 off).data)) := by
  simp [recordKeyP, String.data_append]

lemma tsKeyP_data (p : String) (ts off : Nat) :
    (tsKeyP p ts off).data
      = "/timestamp/".data ++ (p.data ++ ("/".data ++ ((pad20 ts).data
          ++ ("/".data ++ (pad20 off).data)))) := by
  simp [tsKeyP, String.data_append]

lemma keyOffsetKey_data (ns shard key : String) :
    (keyOffsetKey ns shard key).data
      = "/key/".data ++ (ns.data ++ ("/".data ++ (shard.data
          ++ ("/".data ++ key.data)))) := by
  simp [keyOffsetKey, String.data_append]

lemma tagOffsetsKey_data (ns shard tag : String) (off : Nat) :
    (tagOffsetsKey ns shard tag off).data
      = "/tag/".data ++ (ns.data ++ ("/".data ++ (shard.data
          ++ ("/".data ++ (tag.data ++ ("/".data ++ (pad20 off).data)))))) := by
  simp [tagOffsetsKey, String.data_append]

lemma shardInfoKey_data (ns shard : String) :
    (shardInfoKey ns shard).data
      = "/shard/".data ++ (ns.data ++ ("/".data ++ shard.data)) := by
  simp [shardInfoKey, String.data_append]

lemma take3_offsetKeyP (p : String) :
    (offsetKeyP p).data.take 3 = ['/', 'o', 'f'] := by
  rw [offsetKeyP_data, List.take_append_of_le_length (by decide)]
  decide

lemma take3_recordKeyP (p : String) (off : Nat) :
    (recordKeyP p off).data.take 3 = ['/', 'r', 'e'] := by
  rw [recordKeyP_data, List.take_append_of_le_length (by decide)]
  decide

lemma take3_tsKeyP (p : String) (ts off : Nat) :
    (tsKeyP p ts off).data.take 3 = ['/', 't', 'i'] := by
  rw [tsKeyP_data, List.take_append_of_le_length (by decide)]
  decide

lemma take3_keyOffsetKey (ns shard key : String) :
    (keyOffsetKey ns shard key).data.take 3 = ['/', 'k', 'e'] := by
  rw [keyOffsetKey_data, List.take_append_of_le_length (by decide)]
  decide

lemma take3_tagOffsetsKey (ns shard tag : String) (off : Nat) :
    (tagOffsetsKey ns shard tag off).data.take 3 = ['/', 't', 'a'] := by
  rw [tagOffsetsKey_data, List.take_append_of_le_length (by decide)]
  decide

lemma take3_shardInfoKey (ns shard : String) :
    (shardInfoKey ns shard).data.take 3 = ['/', 's', 'h'] := by
  rw [shardInfoKey_data, List.take_append_of_le_length (by decide)]
  decide

lemma offsetKeyP_inj {p q : String} (h : offsetKeyP p = offsetKeyP q) :
    p = q := by
  have h' := congrArg String.data h
  rw [offsetKeyP_data, offsetKeyP_data] at h'
  exact String.ext (List.append_cancel_left h')

lemma recordKeyP_inj {p q : String} {i j : Nat} (hj : j < 10 ^ 20)
    (h : recordKeyP p i = recordKeyP q j) : p = q ∧ i = j := by
  have h' := congrArg String.data h
  rw [recordKeyP_data, recordKeyP_data] at h'
  have h'' := List.append_cancel_left h'
  have hlen : ("/record/".data ++ (pad20 i).data).length
      = ("/record/".data ++ (pad20 j).data).length := by
    simp [List.length_append, pad20_length, pad20_slength]
  obtain ⟨hp, hrest⟩ := List.append_inj' h'' hlen
  have hpad := List.append_cancel_left hrest
  exact ⟨String.ext hp, pad20_inj hj (String.ext hpad)⟩

lemma tsKeyP_inj {p q : String} {t o t' o' : Nat}
    (ht' : t' < 10 ^ 20) (ho' : o' < 10 ^ 20)
    (h : tsKeyP p t o = tsKeyP q t' o') : p = q ∧ t = t' ∧ o = o' := by
  have h' := congrArg String.data h
  rw [tsKeyP_data, tsKeyP_data] at h'
  have h'' := List.append_cancel_left h'
  have hlen : ("/".data ++ ((pad20 t).data ++ ("/".data ++ (pad20 o).data))).length
      = ("/".data ++ ((pad20 t').data ++ ("/".data ++ (pad20 o').data))).length := by
    simp [List.length_append, pad20_length, pad20_slength]
  obtain ⟨hp, hrest⟩ := List.append_inj' h'' hlen
  have hrest' := List.append_cancel_left hrest
  have hlen2 : ("/".data ++ (pad20 o).data).length
      = ("/".data ++ (pad20 o').data).length := by
    simp [List.length_append, pad20_length, pad20_slength]
  obtain ⟨hts, hrest2⟩ := List.append_inj' hrest' hlen2
  have hoff := List.append_cancel_left hrest2
  exact ⟨String.ext hp, pad20_inj ht' (String.ext hts),
    pad20_inj ho' (String.ext hoff)⟩

/-! ### Batch-write characterization -/

lemma writeLoop_offs (ns shard : String) :
    ∀ (c : Nat) (msgs : List Record),
    (writeLoop ns shard c msgs).2.1 = List.range' c msgs.length
  | _, [] => rfl
  | c, msg :: rest => by
    simp only [writeLoop, List.length_cons]
    rw [writeLoop_offs ns shard (c + 1) rest]
    rfl

lemma writeLoop_fin (ns shard : String) :
    ∀ (c : Nat) (msgs : List Record),
    (writeLoop ns shard c msgs).2.2 = c + msgs.length
  | _, [] => by simp [writeLoop]
  | c, msg :: rest => by
    simp only [writeLoop, List.length_cons]
    rw [writeLoop_fin ns shard (c + 1) rest]
    omega

/-- Every entry of a message's batch puts is its record put, its key-index
put, one of its tag puts, or its timestamp put. -/
lemma mem_msgOps_key {ns shard : String} {off : Nat} {msg : Record}
    {e : String × Value} (h : e ∈ msgOps ns shard off msg) :
    e = (shardRecordKey ns shard off,
          Value.vrecord { msg with offset := some off }) ∨
    e.1 = keyOffsetKey ns shard msg.key ∨
    (∃ tag, e.1 = tagOffsetsKey ns shard tag off) ∨
    e = (timestampOffsetKey ns shard msg.timestamp off, Value.vnat off) := by
  simp only [msgOps] at h
  rcases List.mem_append.mp h with h1 | h1
  · rcases List.mem_append.mp h1 with h2 | h2
    · rcases List.mem_cons.mp h2 with h3 | h3
      · exact Or.inl h3
      · by_cases hk : msg.key = ""
        · rw [if_pos hk] at h3
          exact absurd h3 (List.not_mem_nil _)
        · rw [if_neg hk] at h3
          exact Or.inr (Or.inl (by rw [List.mem_singleton.mp h3]))
    · obtain ⟨tag, _, he⟩ := List.mem_map.mp h2
      exact Or.inr (Or.inr (Or.inl ⟨tag, by rw [← he]⟩))
  · exact Or.inr (Or.inr (Or.inr (List.mem_singleton.mp h1)))

lemma mem_writeLoop_ops {ns shard : String} {e : String × Value} :
    ∀ {c : Nat} {msgs : List Record}, e ∈ (writeLoop ns shard c msgs).1 →
    ∃ j msg, j < msgs.length ∧ msgs[j]? = some msg ∧
      e ∈ msgOps ns shard (c + j) msg := by
  intro c msgs
  induction msgs generalizing c with
  | nil => intro h; exact absurd h (List.not_mem_nil e)
  | cons msg rest ih =>
    intro h
    simp only [writeLoop] at h
    rcases List.mem_append.mp h with h1 | h1
    · exact ⟨0, msg, by simp, by simp, by simpa using h1⟩
    · obtain ⟨j, m, hj, hm, hmem⟩ := ih h1
      refine ⟨j + 1, m, by simpa using hj, by simpa using hm, ?_⟩
      rw [show c + (j + 1) = c + 1 + j by omega]
      exact hmem

/-- No key of any batch put is an offset-counter key. -/
lemma msgOps_key_ne_offset {ns shard : String} {off : Nat} {msg : Record}
    {e : String × Value} (h : e ∈ msgOps ns shard off msg) (q : String) :
    e.1 ≠ offsetKeyP q := by
  rcases mem_msgOps_key h with h' | h' | ⟨tag, h'⟩ | h'
  · rw [h', shardRecordKey_eq]
    exact ne_of_take3 (by rw [take3_recordKeyP, take3_offsetKeyP]; decide)
  · rw [h']
    exact ne_of_take3 (by rw [take3_keyOffsetKey, take3_offsetKeyP]; decide)
  · rw [h']
    exact ne_of_take3 (by rw [take3_tagOffsetsKey, take3_offsetKeyP]; decide)
  · rw [h', timestampOffsetKey_eq]
    exact ne_of_take3 (by rw [take3_tsKeyP, take3_offsetKeyP]; decide)

lemma lookupLast_writeLoop_offset (ns shard : String) (c : Nat)
    (msgs : List Record) (q : String) :
    lookupLast (writeLoop ns shard c msgs).1 (offsetKeyP q) = none := by
  apply lookupLast_eq_none
  intro e he
  obtain ⟨j, m, _, _, hmem⟩ := mem_writeLoop_ops he
  exact msgOps_key_ne_offset hmem q

/-- Within one message's puts, the only binding of a record key is the
record put itself. -/
lemma lookupLast_msgOps_record_eq (ns shard : String) (off : Nat)
    (msg : Record) :
    lookupLast (msgOps ns shard off msg) (recordKeyP (pKey ns shard) off)
      = some (.vrecord { msg with offset := some off }) := by
  simp only [msgOps]
  rw [lookupLast_append, lookupLast_append]
  have hts : lookupLast
      [(timestampOffsetKey ns shard msg.timestamp off, Value.vnat off)]
      (recordKeyP (pKey ns shard) off) = none := by
    apply lookupLast_eq_none
    intro e he
    rw [List.mem_singleton.mp he, timestampOffsetKey_eq]
    exact ne_of_take3 (by rw [take3_tsKeyP, take3_recordKeyP]; decide)
  have htags : lookupLast
      (msg.tags.map (fun tag => (tagOffsetsKey ns shard tag off, Value.vnat off)))
      (recordKeyP (pKey ns shard) off) = none := by
    apply lookupLast_eq_none
    intro e he
    obtain ⟨tag, _, he'⟩ := List.mem_map.mp he
    rw [← he']
    exact ne_of_take3 (by rw [take3_tagOffsetsKey, take3_recordKeyP]; decide)
  have hhead : lookupLast
      ((shardRecordKey ns shard off,
          Value.vrecord { msg with offset := some off }) ::
        (if msg.key = "" then []
         else [(keyOffsetKey ns shard msg.key, Value.vnat off)]))
      (recordKeyP (pKey ns shard) off)
      = some (.vrecord { msg with offset := some off }) := by
    rw [lookupLast_cons]
    have hkey : lookupLast
        (if msg.key = "" then []
         else [(keyOffsetKey ns shard msg.key, Value.vnat off)])
        (recordKeyP (pKey ns shard) off) = none := by
      apply lookupLast_eq_none
      intro e he
      have : e.1 = keyOffsetKey ns shard msg.key := by
        by_cases hk : msg.key = ""
        · rw [if_pos hk] at he
          exact absurd he (List.not_mem_nil _)
        · rw [if_neg hk] at he
          rw [List.mem_singleton.mp he]
      rw [this]
      exact ne_of_take3 (by rw [take3_keyOffsetKey, take3_recordKeyP]; decide)
    rw [hkey, shardRecordKey_eq, if_pos rfl]
    rfl
  rw [hts, htags, hhead]
  rfl

/-- A record key not written by a message's puts is unbound by them. -/
lemma lookupLast_msgOps_record_ne (ns shard : String) (off : Nat)
    (msg : Record) (q : String) (i : Nat)
    (h : recordKeyP q i ≠ recordKeyP (pKey ns shard) off) :
    lookupLast (msgOps ns shard off msg) (recordKeyP q i) = none := by
  apply lookupLast_eq_none
  intro e he
  rcases mem_msgOps_key he with h' | h' | ⟨tag, h'⟩ | h'
  · rw [h', shardRecordKey_eq]
    exact Ne.symm h
  · rw [h']
    exact ne_of_take3 (by rw [take3_keyOffsetKey, take3_recordKeyP]; decide)
  · rw [h']
    exact ne_of_take3 (by rw [take3_tagOffsetsKey, take3_recordKeyP]; decide)
  · rw [h', timestampOffsetKey_eq]
    exact ne_of_take3 (by rw [take3_tsKeyP, take3_recordKeyP]; decide)

/-- A record key distinct from all the record keys assigned to the batch
is unbound by the whole message loop. -/
lemma lookupLast_writeLoop_record_none (ns shard : String) (q : String)
    (i : Nat) (c : Nat) (msgs : List Record)
    (hne : ∀ j, j < msgs.length →
      recordKeyP q i ≠ recordKeyP (pKey ns shard) (c + j)) :
    lookupLast (writeLoop ns shard c msgs).1 (recordKeyP q i) = none := by
  apply lookupLast_eq_none
  intro e he
  obtain ⟨j, m, hj, _, hmem⟩ := mem_writeLoop_ops he
  rcases mem_msgOps_key hmem with h' | h' | ⟨tag, h'⟩ | h'
  · rw [h', shardRecordKey_eq]
    exact Ne.symm (hne j hj)
  · rw [h']
    exact ne_of_take3 (by rw [take3_keyOffsetKey, take3_recordKeyP]; decide)
  · rw [h']
    exact ne_of_take3 (by rw [take3_tagOffsetsKey, take3_recordKeyP]; decide)
  · rw [h', timestampOffsetKey_eq]
    exact ne_of_take3 (by rw [take3_tsKeyP, take3_recordKeyP]; decide)

/-- The record key assigned to the `j`-th message of the batch is bound
to exactly that record, offset stamped in. -/
lemma lookupLast_writeLoop_record_in (ns shard : String) :
    ∀ (c : Nat) (msgs : List Record) (j : Nat) (msg : Record),
    msgs[j]? = some msg → c + msgs.length ≤ 10 ^ 20 →
    lookupLast (writeLoop ns shard c msgs).1
        (recordKeyP (pKey ns shard) (c + j))
      = some (.vrecord { msg with offset := some (c + j) })
  | _, [], j, msg, hm, _ => by simp at hm
  | c, m0 :: rest, 0, msg, hm, hb => by
    have hm0 : m0 = msg := by simpa using hm
    subst hm0
    simp only [writeLoop]
    rw [lookupLast_append]
    have hrest : lookupLast (writeLoop ns shard (c + 1) rest).1
        (recordKeyP (pKey ns shard) (c + 0)) = none := by
      apply lookupLast_writeLoop_record_none
      intro j' hj' he
      obtain ⟨_, hij⟩ := recordKeyP_inj
        (by simp only [List.length_cons] at hb; omega) he
      omega
    rw [hrest, Nat.add_zero, lookupLast_msgOps_record_eq]
    rfl
  | c, m0 :: rest, j + 1, msg, hm, hb => by
    simp only [writeLoop]
    rw [lookupLast_append, show c + (j + 1) = c + 1 + j by omega]
    have hA : lookupLast (msgOps ns shard c m0)
        (recordKeyP (pKey ns shard) (c + 1 + j)) = none := by
      apply lookupLast_msgOps_record_ne
      intro he
      obtain ⟨_, hij⟩ := recordKeyP_inj
        (by simp only [List.length_cons] at hb; omega) he
      omega
    have hB := lookupLast_writeLoop_record_in ns shard (c + 1) rest j msg
      (by simpa using hm)
      (by simp only [List.length_cons] at hb; omega)
    rw [hA, hB]
    rfl

/-- Within one message's puts, the only binding of a timestamp-index key
is the message's own timestamp put. -/
lemma lookupLast_msgOps_ts (ns shard : String) (off : Nat) (msg : Record)
    (q : String) (t o : Nat) :
    lookupLast (msgOps ns shard off msg) (tsKeyP q t o)
      = if timestampOffsetKey ns shard msg.timestamp off = tsKeyP q t o
        then some (.vnat off) else none := by
  simp only [msgOps]
  rw [lookupLast_append, lookupLast_append]
  have htags : lookupLast
      (msg.tags.map (fun tag => (tagOffsetsKey ns shard tag off, Value.vnat off)))
      (tsKeyP q t o) = none := by
    apply lookupLast_eq_none
    intro e he
    obtain ⟨tag, _, he'⟩ := List.mem_map.mp he
    rw [← he']
    exact ne_of_take3 (by rw [take3_tagOffsetsKey, take3_tsKeyP]; decide)
  have hhead : lookupLast
      ((shardRecordKey ns shard off,
          Value.vrecord { msg with offset := some off }) ::
        (if msg.key = "" then []
         else [(keyOffsetKey ns shard msg.key, Value.vnat off)]))
      (tsKeyP q t o) = none := by
    apply lookupLast_eq_none
    intro e he
    rcases List.mem_cons.mp he with h' | h'
    · rw [h', shardRecordKey_eq]
      exact ne_of_take3 (by rw [take3_recordKeyP, take3_tsKeyP]; decide)
    · have : e.1 = keyOffsetKey ns shard msg.key := by
        by_cases hk : msg.key = ""
        · rw [if_pos hk] at h'
          exact absurd h' (List.not_mem_nil _)
        · rw [if_neg hk] at h'
          rw [List.mem_singleton.mp h']
      rw [this]
      exact ne_of_take3 (by rw [take3_keyOffsetKey, take3_tsKeyP]; decide)
  rw [htags, hhead]
  have hsingle : lookupLast
      [(timestampOffsetKey ns shard msg.timestamp off, Value.vnat off)]
      (tsKeyP q t o)
      = if timestampOffsetKey ns shard msg.timestamp off = tsKeyP q t o
        then some (.vnat off) else none := by
    rw [lookupLast_cons]
    rfl
  rw [hsingle]
  split <;> rfl

/-- A timestamp-index key written by none of the batch's messages is
unbound by the message loop. -/
lemma lookupLast_writeLoop_ts_none (ns shard : String) (q : String)
    (t o : Nat) (c : Nat) (msgs : List Record)
    (hne : ∀ j msg, msgs[j]? = some msg →
      timestampOffsetKey ns shard msg.timestamp (c + j) ≠ tsKeyP q t o) :
    lookupLast (writeLoop ns shard c msgs).1 (tsKeyP q t o) = none := by
  apply lookupLast_eq_none
  intro e he
  obtain ⟨j, m, hj, hm, hmem⟩ := mem_writeLoop_ops he
  rcases mem_msgOps_key hmem with h' | h' | ⟨tag, h'⟩ | h'
  · rw [h', shardRecordKey_eq]
    exact ne_of_take3 (by rw [take3_recordKeyP, take3_tsKeyP]; decide)
  · rw [h']
    exact ne_of_take3 (by rw [take3_keyOffsetKey, take3_tsKeyP]; decide)
  · rw [h']
    exact ne_of_take3 (by rw [take3_tagOffsetsKey, take3_tsKeyP]; decide)
  · rw [h']
    exact hne j m hm

/-- The timestamp-index key of the `j`-th message of the batch is bound
to that message's assigned offset. -/
lemma lookupLast_writeLoop_ts_in (ns shard : String) :
    ∀ (c : Nat) (msgs : List Record) (j : Nat) (msg : Record),
    msgs[j]? = some msg → c + msgs.length ≤ 10 ^ 20 →
    (∀ m ∈ msgs, m.timestamp < 10 ^ 20) →
    lookupLast (writeLoop ns shard c msgs).1
        (tsKeyP (pKey ns shard) msg.timestamp (c + j))
      = some (.vnat (c + j))
  | _, [], j, msg, hm, _, _ => by simp at hm
  | c, m0 :: rest, 0, msg, hm, hb, hwf => by
    have hm0 : m0 = msg := by simpa using hm
    subst hm0
    simp only [writeLoop]
    rw [lookupLast_append]
    have hrest : lookupLast (writeLoop ns shard (c + 1) rest).1
        (tsKeyP (pKey ns shard) m0.timestamp (c + 0)) = none := by
      apply lookupLast_writeLoop_ts_none
      intro j' m' hm' he
      rw [timestampOffsetKey_eq] at he
      have hj' : j' < rest.length := (List.getElem?_eq_some_iff.mp hm').1
      obtain ⟨_, _, ho⟩ := tsKeyP_inj
        (by
          have := hwf m0 (List.mem_cons_self _ _)
          omega)
        (by simp only [List.length_cons] at hb; omega) he
      omega
    rw [hrest, lookupLast_msgOps_ts, if_pos (by rw [Nat.add_zero, timestampOffsetKey_eq])]
    rfl
  | c, m0 :: rest, j + 1, msg, hm, hb, hwf => by
    simp only [writeLoop]
    rw [lookupLast_append, show c + (j + 1) = c + 1 + j by omega]
    have hm' : rest[j]? = some msg := by simpa using hm
    have hj : j < rest.length := (List.getElem?_eq_some_iff.mp hm').1
    have hmsgmem : msg ∈ rest := List.getElem?_mem hm'
    have hA : lookupLast (msgOps ns shard c m0)
        (tsKeyP (pKey ns shard) msg.timestamp (c + 1 + j)) = none := by
      rw [lookupLast_msgOps_ts]
      rw [if_neg]
      intro he
      rw [timestampOffsetKey_eq] at he
      obtain ⟨_, _, ho⟩ := tsKeyP_inj
        (by
          have := hwf msg (List.mem_cons_of_mem _ hmsgmem)
          omega)
        (by simp only [List.length_cons] at hb; omega) he
      omega
    have hB := lookupLast_writeLoop_ts_in ns shard (c + 1) rest j msg hm'
      (by simp only [List.length_cons] at hb; omega)
      (fun m hmm => hwf m (List.mem_cons_of_mem _ hmm))
    rw [hA, hB]
    rfl

lemma pairwise_applyBatch :
    ∀ (ops : List (String × Value)) (st : Store),
    st.Pairwise (fun a b => keyLt a.1 b.1 = true) →
    (applyBatch st ops).Pairwise (fun a b => keyLt a.1 b.1 = true)
  | [], _, h => h
  | e :: ops, st, h => by
    simp only [applyBatch, List.foldl_cons]
    exact pairwise_applyBatch ops _ (pairwise_storePut st e.1 e.2 h)

/-- Characterization of the store after a successful
`thread_batch_write`: the written shard's counter advances to one past
the last assigned offset, the batch's record and timestamp-index keys
receive their new bindings, and every other offset / record /
timestamp-index key is untouched. -/
lemma thread_batch_write_get {st st' : Store} {ns shard : String}
    {msgs : List Record} {offs : List Nat} {c : Nat}
    (hc : storeGet st (shardOffsetKey ns shard) = some (.vnat c))
    (hb : c + msgs.length ≤ 10 ^ 20)
    (hwf : ∀ m ∈ msgs, m.timestamp < 10 ^ 20)
    (hw : thread_batch_write st ns shard msgs = .ok (st', offs)) :
    offs = List.range' c msgs.length ∧
    (∀ p, storeGet st' (offsetKeyP p)
      = if p = pKey ns shard then some (.vnat (c + msgs.length))
        else storeGet st (offsetKeyP p)) ∧
    (∀ j msg, msgs[j]? = some msg →
      storeGet st' (recordKeyP (pKey ns shard) (c + j))
        = some (.vrecord { msg with offset := some (c + j) })) ∧
    (∀ q i, (q = pKey ns shard → ∀ j, j < msgs.length → i ≠ c + j) →
      storeGet st' (recordKeyP q i) = storeGet st (recordKeyP q i)) ∧
    (∀ j msg, msgs[j]? = some msg →
      storeGet st' (tsKeyP (pKey ns shard) msg.timestamp (c + j))
        = some (.vnat (c + j))) ∧
    (∀ q t o, (∀ j msg, msgs[j]? = some msg →
        ¬(q = pKey ns shard ∧ t = msg.timestamp ∧ o = c + j)) →
      storeGet st' (tsKeyP q t o) = storeGet st (tsKeyP q t o)) ∧
    st' = applyBatch st ((writeLoop ns shard c msgs).1
      ++ [(shardOffsetKey ns shard, Value.vnat (c + msgs.length))]) := by
  simp only [thread_batch_write, readU64, hc, Except.bind, bind, writeLoop_fin] at hw
  obtain ⟨hst', hoffs⟩ : applyBatch st ((writeLoop ns shard c msgs).1
      ++ [(shardOffsetKey ns shard, Value.vnat (c + msgs.length))]) = st' ∧
      (writeLoop ns shard c msgs).2.1 = offs := by
    exact ⟨congrArg Prod.fst (Except.ok.inj hw),
           congrArg Prod.snd (Except.ok.inj hw)⟩
  subst hst'
  subst hoffs
  have hget : ∀ k, storeGet (applyBatch st ((writeLoop ns shard c msgs).1
      ++ [(shardOffsetKey ns shard, Value.vnat (c + msgs.length))])) k
      = ((lookupLast [(shardOffsetKey ns shard,
            Value.vnat (c + msgs.length))] k).or
          (lookupLast (writeLoop ns shard c msgs).1 k)).or (storeGet st k) := by
    intro k
    rw [storeGet_applyBatch, lookupLast_append]
  have hctr : ∀ k, lookupLast [(shardOffsetKey ns shard,
      Value.vnat (c + msgs.length))] k
      = if shardOffsetKey ns shard = k
        then some (.vnat (c + msgs.length)) else none := by
    intro k
    rw [lookupLast_cons]
    rfl
  refine ⟨writeLoop_offs ns shard c msgs, ?_, ?_, ?_, ?_, ?_, rfl⟩
  · intro p
    rw [hget, hctr, lookupLast_writeLoop_offset]
    by_cases hp : p = pKey ns shard
    · subst hp
      rw [if_pos (shardOffsetKey_eq ns shard), if_pos rfl]
      rfl
    · rw [if_neg, if_neg hp]
      · rfl
      · rw [shardOffsetKey_eq]
        exact fun he => hp (offsetKeyP_inj he).symm
  · intro j msg hm
    have hj : j < msgs.length := (List.getElem?_eq_some_iff.mp hm).1
    rw [hget, hctr, if_neg, lookupLast_writeLoop_record_in ns shard c msgs j msg hm hb]
    · rfl
    · rw [shardOffsetKey_eq]
      exact Ne.symm (ne_of_take3
        (by rw [take3_recordKeyP, take3_offsetKeyP]; decide))
  · intro q i hne
    rw [hget, hctr, if_neg, lookupLast_writeLoop_record_none]
    · rfl
    · intro j hj he
      obtain ⟨hq, hi⟩ := recordKeyP_inj (by omega) he
      exact hne hq j hj hi
    · rw [shardOffsetKey_eq]
      exact Ne.symm (ne_of_take3
        (by rw [take3_recordKeyP, take3_offsetKeyP]; decide))
  · intro j msg hm
    rw [hget, hctr, if_neg,
      lookupLast_writeLoop_ts_in ns shard c msgs j msg hm hb hwf]
    · rfl
    · rw [shardOffsetKey_eq]
      exact Ne.symm (ne_of_take3
        (by rw [take3_tsKeyP, take3_offsetKeyP]; decide))
  · intro q t o hne
    rw [hget, hctr, if_neg, lookupLast_writeLoop_ts_none]
    · rfl
    · intro j msg hm he
      have hj : j < msgs.length := (List.getElem?_eq_some_iff.mp hm).1
      have hmem : msg ∈ msgs := List.getElem?_mem hm
      rw [timestampOffsetKey_eq] at he
      obtain ⟨hq, ht, ho⟩ := tsKeyP_inj
        (by have := hwf msg hmem; omega) (by omega) he.symm
      exact hne j msg hm ⟨hq, ht, ho⟩
    · rw [shardOffsetKey_eq]
      exact Ne.symm (ne_of_take3
        (by rw [take3_tsKeyP, take3_offsetKeyP]; decide))

/-- Characterization of a successful `create_shard`: the offset key was
previously absent, and the new store adds exactly the zero counter and
the shard config. -/
lemma create_shard_get {st st' : Store} {info : ShardInfo}
    (hc : create_shard st info = .ok st') :
    storeGet st (shardOffsetKey info.namespace_ info.shard_name) = none ∧
    st' = storePut
      (storePut st (shardOffsetKey info.namespace_ info.shard_name)
        (.vnat 0))
      (shardInfoKey info.namespace_ info.shard_name) (.vshard info) ∧
    ∀ k, storeGet st' k
      = if k = shardInfoKey info.namespace_ info.shard_name
        then some (.vshard info)
        else if k = shardOffsetKey info.namespace_ info.shard_name
        then some (.vnat 0)
        else storeGet st k := by
  cases hg : storeGet st (shardOffsetKey info.namespace_ info.shard_name) with
  | none =>
    simp only [create_shard, readU64, hg, Except.bind, bind, Option.isSome_none,
      Bool.false_eq_true, if_false, Except.ok.injEq] at hc
    refine ⟨rfl, hc.symm, fun k => ?_⟩
    rw [← hc, storeGet_put, storeGet_put]
  | some v =>
    exfalso
    cases v <;>
      simp [create_shard, readU64, hg, Except.bind, bind] at hc

/-- `create_shard` preserves the store invariant. -/
lemma StoreInv_create {st st' : Store} {info : ShardInfo}
    (hinv : StoreInv st) (hc : create_shard st info = .ok st') :
    StoreInv st' := by
  obtain ⟨hnone, hst', hget⟩ := create_shard_get hc
  have hnoneP : storeGet st (offsetKeyP (pKey info.namespace_ info.shard_name))
      = none := by
    rw [← shardOffsetKey_eq]
    exact hnone
  have hrec : ∀ p i, storeGet st' (recordKeyP p i)
      = storeGet st (recordKeyP p i) := by
    intro p i
    rw [hget, if_neg, if_neg]
    · rw [shardOffsetKey_eq]
      exact ne_of_take3 (by rw [take3_recordKeyP, take3_offsetKeyP]; decide)
    · exact ne_of_take3 (by rw [take3_recordKeyP, take3_shardInfoKey]; decide)
  have hts : ∀ p t o, storeGet st' (tsKeyP p t o)
      = storeGet st (tsKeyP p t o) := by
    intro p t o
    rw [hget, if_neg, if_neg]
    · rw [shardOffsetKey_eq]
      exact ne_of_take3 (by rw [take3_tsKeyP, take3_offsetKeyP]; decide)
    · exact ne_of_take3 (by rw [take3_tsKeyP, take3_shardInfoKey]; decide)
  have hoff : ∀ p, storeGet st' (offsetKeyP p)
      = if p = pKey info.namespace_ info.shard_name
        then some (.vnat 0) else storeGet st (offsetKeyP p) := by
    intro p
    rw [hget, if_neg
      (ne_of_take3 (by rw [take3_offsetKeyP, take3_shardInfoKey]; decide))]
    by_cases hp : p = pKey info.namespace_ info.shard_name
    · subst hp
      rw [if_pos (shardOffsetKey_eq _ _).symm, if_pos rfl]
    · rw [if_neg, if_neg hp]
      rw [shardOffsetKey_eq]
      exact fun he => hp (offsetKeyP_inj he)
  refine ⟨?_, ?_, ?_, ?_, ?_, ?_, ?_⟩
  · rw [hst']
    exact pairwise_storePut _ _ _ (pairwise_storePut _ _ _ hinv.sorted)
  · intro p v h
    rw [hoff] at h
    by_cases hp : p = pKey info.namespace_ info.shard_name
    · rw [if_pos hp] at h
      exact ⟨0, (Option.some.inj h).symm, by norm_num [U64MOD]⟩
    · rw [if_neg hp] at h
      exact hinv.counterVal p v h
  · intro p c h i hi
    rw [hoff] at h
    rw [hrec]
    by_cases hp : p = pKey info.namespace_ info.shard_name
    · rw [if_pos hp] at h
      have : c = 0 := by
        have := Option.some.inj h
        injection this.symm
      omega
    · rw [if_neg hp] at h
      exact hinv.recBelow p c h i hi
  · intro p c h i hi
    rw [hoff] at h
    rw [hrec]
    by_cases hp : p = pKey info.namespace_ info.shard_name
    · subst hp
      exact hinv.recNone _ hnoneP i
    · rw [if_neg hp] at h
      exact hinv.recAbove p c h i hi
  · intro p h i
    rw [hoff] at h
    rw [hrec]
    by_cases hp : p = pKey info.namespace_ info.shard_name
    · rw [if_pos hp] at h
      exact absurd h (by simp)
    · rw [if_neg hp] at h
      exact hinv.recNone p h i
  · intro p t o v h
    rw [hts] at h
    obtain ⟨r, hr, hrt, hv, hb1, hb2⟩ := hinv.tsSound p t o v h
    exact ⟨r, by rw [hrec]; exact hr, hrt, hv, hb1, hb2⟩
  · intro p o r h
    rw [hrec] at h
    rw [hts]
    exact hinv.tsComplete p o r h

lemma U64MOD_lt_pow20 : U64MOD < 10 ^ 20 := by norm_num [U64MOD]

/-- `thread_batch_write` preserves the store invariant (under the `u64`
side conditions recorded in `Reachable.write`). -/
lemma StoreInv_write {st st' : Store} {ns shard : String}
    {msgs : List Record} {offs : List Nat}
    (hinv : StoreInv st)
    (hwf : ∀ m ∈ msgs, m.timestamp < U64MOD)
    (hovf : ∀ c, storeGet st (shardOffsetKey ns shard) = some (.vnat c) →
      c + msgs.length < U64MOD)
    (hw : thread_batch_write st ns shard msgs = .ok (st', offs)) :
    StoreInv st' := by
  rcases hg : storeGet st (shardOffsetKey ns shard) with _ | v
  · exfalso
    simp [thread_batch_write, readU64, hg, Except.bind, bind] at hw
  · obtain ⟨c, rfl, hcb⟩ := hinv.counterVal (pKey ns shard) v
      (by rw [← shardOffsetKey_eq]; exact hg)
    have hgP : storeGet st (offsetKeyP (pKey ns shard)) = some (.vnat c) := by
      rw [← shardOffsetKey_eq]; exact hg
    have hcap : c + msgs.length < U64MOD := hovf c hg
    have hb20 : c + msgs.length ≤ 10 ^ 20 :=
      le_of_lt (lt_trans hcap U64MOD_lt_pow20)
    have hwf20 : ∀ m ∈ msgs, m.timestamp < 10 ^ 20 :=
      fun m hm => lt_trans (hwf m hm) U64MOD_lt_pow20
    obtain ⟨hoffs, hoff, hrecin, hrecout, htsin, htsout, hst'⟩ :=
      thread_batch_write_get hg hb20 hwf20 hw
    refine ⟨?_, ?_, ?_, ?_, ?_, ?_, ?_⟩
    · rw [hst']
      exact pairwise_applyBatch _ _ hinv.sorted
    · intro p v h
      rw [hoff] at h
      by_cases hp : p = pKey ns shard
      · rw [if_pos hp] at h
        exact ⟨c + msgs.length, (Option.some.inj h).symm, hcap⟩
      · rw [if_neg hp] at h
        exact hinv.counterVal p v h
    · -- recBelow
      intro p c' h i hi
      rw [hoff] at h
      by_cases hp : p = pKey ns shard
      · subst hp
        rw [if_pos rfl] at h
        have hc' : c' = c + msgs.length := by
          have hval := Option.some.inj h
          injection hval with hh
          omega
        subst hc'
        by_cases hic : i < c
        · rw [hrecout _ i (fun _ j hj => by omega)]
          exact hinv.recBelow _ c hgP i hic
        · have hj : i - c < msgs.length := by omega
          obtain ⟨msg, hm⟩ : ∃ msg, msgs[i - c]? = some msg :=
            ⟨msgs[i - c], List.getElem?_eq_getElem hj⟩
          have := hrecin (i - c) msg hm
          rw [show c + (i - c) = i by omega] at this
          refine ⟨{ msg with offset := some i }, this, rfl, ?_⟩
          simpa using hwf msg (List.getElem?_mem hm)
      · rw [if_neg hp] at h
        rw [hrecout p i (fun hq => absurd hq hp)]
        exact hinv.recBelow p c' h i hi
    · -- recAbove
      intro p c' h i hi
      rw [hoff] at h
      by_cases hp : p = pKey ns shard
      · subst hp
        rw [if_pos rfl] at h
        have hc' : c' = c + msgs.length := by
          have hval := Option.some.inj h
          injection hval with hh
          omega
        subst hc'
        rw [hrecout _ i (fun _ j hj => by omega)]
        exact hinv.recAbove _ c hgP i (by omega)
      · rw [if_neg hp] at h
        rw [hrecout p i (fun hq => absurd hq hp)]
        exact hinv.recAbove p c' h i hi
    · -- recNone
      intro p h i
      rw [hoff] at h
      by_cases hp : p = pKey ns shard
      · rw [if_pos hp] at h
        exact absurd h (by simp)
      · rw [if_neg hp] at h
        rw [hrecout p i (fun hq => absurd hq hp)]
        exact hinv.recNone p h i
    · -- tsSound
      intro p t o v h
      by_cases hcase : ∃ j msg, msgs[j]? = some msg ∧
          p = pKey ns shard ∧ t = msg.timestamp ∧ o = c + j
      · obtain ⟨j, msg, hm, rfl, rfl, rfl⟩ := hcase
        have hj : j < msgs.length := (List.getElem?_eq_some_iff.mp hm).1
        have hv : v = .vnat (c + j) := by
          have := htsin j msg hm
          rw [h] at this
          exact Option.some.inj this
        refine ⟨{ msg with offset := some (c + j) }, hrecin j msg hm, rfl, hv,
          hwf msg (List.getElem?_mem hm), by omega⟩
      · push_neg at hcase
        rw [htsout p t o (fun j msg hm hand =>
          hcase j msg hm hand.1 hand.2.1 hand.2.2)] at h
        obtain ⟨r, hr, hrt, hv, hb1, hb2⟩ := hinv.tsSound p t o v h
        refine ⟨r, ?_, hrt, hv, hb1, hb2⟩
        by_cases hp : p = pKey ns shard
        · subst hp
          have ho : o < c := by
            by_contra hoc
            have := hinv.recAbove _ c hgP o (by omega)
            rw [this] at hr
            exact absurd hr (by simp)
          rw [hrecout _ o (fun _ j hj => by omega)]
          exact hr
        · rw [hrecout p o (fun hq => absurd hq hp)]
          exact hr
    · -- tsComplete
      intro p o r h
      by_cases hcase : p = pKey ns shard ∧ c ≤ o ∧ o < c + msgs.length
      · obtain ⟨rfl, hco, holt⟩ := hcase
        have hj : o - c < msgs.length := by omega
        obtain ⟨msg, hm⟩ : ∃ msg, msgs[o - c]? = some msg :=
          ⟨msgs[o - c], List.getElem?_eq_getElem hj⟩
        have hrec := hrecin (o - c) msg hm
        rw [show c + (o - c) = o by omega] at hrec
        rw [hrec] at h
        have hr : r = { msg with offset := some o } := by
          have hx := Option.some.inj h
          injection hx with hh
          exact hh.symm
        have hts := htsin (o - c) msg hm
        rw [show c + (o - c) = o by omega] at hts
        rw [hr]
        simpa using hts
      · have hneq : ∀ j, j < msgs.length → ¬(p = pKey ns shard ∧ o = c + j) := by
          intro j hj hand
          exact hcase ⟨hand.1, by omega, by omega⟩
        have hur : storeGet st' (recordKeyP p o) = storeGet st (recordKeyP p o) := by
          apply hrecout
          intro hq j hj
          exact fun ho => (hneq j hj) ⟨hq, ho⟩
        rw [hur] at h
        have hold := hinv.tsComplete p o r h
        rw [htsout p r.timestamp o]
        · exact hold
        · intro j msg hm hand
          exact (hneq j (List.getElem?_eq_some_iff.mp hm).1) ⟨hand.1, hand.2.2⟩

/-- Every reachable store satisfies the invariant. -/
lemma Reachable_StoreInv {st : Store} (h : Reachable st) : StoreInv st := by
  induction h with
  | empty =>
    refine ⟨List.Pairwise.nil, ?_, ?_, ?_, ?_, ?_, ?_⟩ <;>
      intros <;> simp_all [storeGet]
  | create _ hc ih => exact StoreInv_create ih hc
  | write _ hwf hovf hw ih => exact StoreInv_write ih hwf hovf hw

/-- Claim C1: offsets are assigned densely.  Part 1: `create_shard`
initializes the offset counter of a fresh shard to `0` (so its first
record receives offset 0).  Part 2: from any reachable store, a
successful `batch_write` of `n` records returns the consecutive offsets
`c, c+1, …, c+n-1` continuing from the stored counter `c`, stores the
`j`-th record under offset `c + j`, leaves the counter at `c + n` — one
past the offset of the last record written — and afterwards the records
of the shard are exactly those with offsets below `c + n` (no gaps).
The two `u64`-range hypotheses restate the source's value ranges (all
timestamps are `u64`; the `u64` offset counter does not overflow in any
realizable run). -/
theorem claim_C1 :
    (∀ (st st' : Store) (info : ShardInfo),
      create_shard st info = .ok st' →
      storeGet st' (shardOffsetKey info.namespace_ info.shard_name)
        = some (.vnat 0)) ∧
    (∀ (st st' : Store) (ns shard : String) (msgs : List Record)
        (offs : List Nat),
      Reachable st →
      (∀ m ∈ msgs, m.timestamp < U64MOD) →
      (∀ c, storeGet st (shardOffsetKey ns shard) = some (.vnat c) →
        c + msgs.length < U64MOD) →
      batch_write st ns shard msgs = .ok (st', offs) →
      ∃ c, storeGet st (shardOffsetKey ns shard) = some (.vnat c) ∧
        offs = List.range' c msgs.length ∧
        storeGet st' (shardOffsetKey ns shard)
          = some (.vnat (c + msgs.length)) ∧
        (∀ j msg, msgs[j]? = some msg →
          storeGet st' (shardRecordKey ns shard (c + j))
            = some (.vrecord { msg with offset := some (c + j) })) ∧
        (∀ i, (∃ r, storeGet st' (shardRecordKey ns shard i)
            = some (.vrecord r) ∧ r.offset = some i) ↔ i < c + msgs.length)) := by
  constructor
  · intro st st' info hc
    obtain ⟨_, _, hget⟩ := create_shard_get hc
    rw [hget, if_neg, if_pos rfl]
    rw [shardOffsetKey_eq]
    exact ne_of_take3 (by rw [take3_offsetKeyP, take3_shardInfoKey]; decide)
  · intro st st' ns shard msgs offs hr hwf hovf hbw
    have hinv := Reachable_StoreInv hr
    rcases hg : storeGet st (shardOffsetKey ns shard) with _ | v
    · exfalso
      simp [batch_write, ensure_shard_exists, readU64, hg,
        Except.bind, bind] at hbw
    · cases v with
      | vrecord r =>
        exfalso
        simp [batch_write, ensure_shard_exists, readU64, hg,
          Except.bind, bind] at hbw
      | vshard s =>
        exfalso
        simp [batch_write, ensure_shard_exists, readU64, hg,
          Except.bind, bind] at hbw
      | vnat c =>
        have hth : thread_batch_write st ns shard msgs = .ok (st', offs) := by
          simpa [batch_write, ensure_shard_exists, readU64, hg,
            Except.bind, bind] using hbw
        have hcap : c + msgs.length < U64MOD := hovf c hg
        have hb20 : c + msgs.length ≤ 10 ^ 20 :=
          le_of_lt (lt_trans hcap U64MOD_lt_pow20)
        have hwf20 : ∀ m ∈ msgs, m.timestamp < 10 ^ 20 :=
          fun m hm => lt_trans (hwf m hm) U64MOD_lt_pow20
        obtain ⟨hoffs, hoff, hrecin, _, _, _, _⟩ :=
          thread_batch_write_get hg hb20 hwf20 hth
        have hinv' : StoreInv st' := StoreInv_write hinv hwf hovf hth
        have hc' : storeGet st' (offsetKeyP (pKey ns shard))
            = some (.vnat (c + msgs.length)) := by
          rw [hoff, if_pos rfl]
        refine ⟨c, rfl, hoffs, ?_, ?_, ?_⟩
        · rw [shardOffsetKey_eq]
          exact hc'
        · intro j msg hm
          rw [shardRecordKey_eq]
          exact hrecin j msg hm
        · intro i
          constructor
          · rintro ⟨r, hrg, _⟩
            by_contra hge
            have hnone := hinv'.recAbove _ _ hc' i (by omega)
            rw [shardRecordKey_eq] at hrg
            rw [hnone] at hrg
            exact absurd hrg (by simp)
          · intro hi
            obtain ⟨r, hrg, hro, _⟩ := hinv'.recBelow _ _ hc' i hi
            exact ⟨r, by rw [shardRecordKey_eq]; exact hrg, hro⟩

/-- Witness for C1 on a concrete run: create shard `("n", "s")` in an
empty store, then batch-write two records; the fresh counter is 0, the
post-batch counter is 2, and record 0 is the first input stamped with
offset 0. -/
theorem claim_C1_witness :
    storeGet wStore1 (shardOffsetKey "n" "s") = some (.vnat 0) ∧
    storeGet wStore2 (shardOffsetKey "n" "s") = some (.vnat 2) ∧
    storeGet wStore2 (shardRecordKey "n" "s" 0)
      = some (.vrecord { wMsg1 with offset := some 0 }) := by
  have h1 : create_shard ([] : Store) wInfo = .ok wStore1 := rfl
  have hr1 : Reachable wStore1 := Reachable.create Reachable.empty h1
  have hbw : batch_write wStore1 "n" "s" [wMsg1, wMsg2]
      = .ok (wStore2, [0, 1]) := rfl
  have hovf : ∀ c, storeGet wStore1 (shardOffsetKey "n" "s")
      = some (.vnat c) → c + ([wMsg1, wMsg2] : List Record).length < U64MOD := by
    intro c hc
    have he : storeGet wStore1 (shardOffsetKey "n" "s")
        = some (Value.vnat 0) := by decide
    rw [he] at hc
    have hx := Option.some.inj hc
    injection hx with hh
    subst hh
    decide
  obtain ⟨c, hc, _, hctr, hrec, _⟩ :=
    claim_C1.2 wStore1 wStore2 "n" "s" [wMsg1, wMsg2] [0, 1] hr1
      (by decide) hovf hbw
  have hc0 : c = 0 := by
    have he : storeGet wStore1 (shardOffsetKey "n" "s")
        = some (Value.vnat 0) := by decide
    rw [he] at hc
    have hx := Option.some.inj hc
    injection hx with hh
    omega
  subst hc0
  exact ⟨claim_C1.1 [] wStore1 wInfo h1, hctr, hrec 0 wMsg1 rfl⟩

/-- The scan loop of `read_by_offset` returns exactly the contiguous
records starting at offset `i`, when the store holds the records `rem`
(offset-stamped) at `i, i+1, …`, nothing at `i + rem.length`, the fuel
covers `rem`, and the size budget is not exceeded. -/
lemma readLoop_spec (st : Store) (ns shard : String) (maxSize : Nat) :
    ∀ (rem : List Record) (i fuel total : Nat),
    (∀ j msg, rem[j]? = some msg →
      storeGet st (shardRecordKey ns shard (i + j))
        = some (.vrecord { msg with offset := some (i + j) })) →
    storeGet st (shardRecordKey ns shard (i + rem.length)) = none →
    rem.length ≤ fuel →
    total + (rem.map (fun m => m.data.length)).sum ≤ maxSize →
    readLoop st ns shard maxSize i fuel total = .ok (withOffsets i rem)
  | [], i, fuel, total, _, h2, _, _ => by
    cases fuel with
    | zero => rfl
    | succ f =>
      rw [show i + ([] : List Record).length = i by simp] at h2
      simp [readLoop, h2, withOffsets]
  | m :: rest, i, fuel, total, h1, h2, h3, h4 => by
    cases fuel with
    | zero => simp at h3
    | succ f =>
      have hm := h1 0 m (by simp)
      rw [Nat.add_zero] at hm
      simp only [readLoop, hm]
      have hbytes : ({ m with offset := some i } : Record).data.length
          = m.data.length := rfl
      rw [hbytes]
      have hsz : ¬(maxSize < total + m.data.length) := by
        simp only [List.map_cons, List.sum_cons] at h4
        omega
      rw [if_neg hsz]
      have hrec := readLoop_spec st ns shard maxSize rest (i + 1) f
        (total + m.data.length)
        (fun j msg hj => by
          have := h1 (j + 1) msg (by simpa using hj)
          rw [show i + (j + 1) = i + 1 + j by omega] at this
          exact this)
        (by
          rw [show i + 1 + rest.length = i + (m :: rest).length by simp; omega]
          exact h2)
        (by simp at h3; omega)
        (by simp only [List.map_cons, List.sum_cons] at h4; omega)
      rw [hrec]
      rfl

/-- Claim C3: writing a batch and reading it back.  If `batch_write`
succeeds from a reachable store whose counter for the shard is `o`, it
returns the offsets `o, …, o + n - 1`, and `read_by_offset` at offset `o`
with `max_record_num ≥ n` and `max_size = u64::MAX` (the claim's `∞`)
returns exactly the written records in order, the `j`-th carrying offset
`o + j`.  The `u64`-range hypotheses restate the source's value ranges;
the total-size hypothesis keeps the `u64` byte counter of the read loop
exact (any realizable record set satisfies it). -/
theorem claim_C3 (st st' : Store) (ns shard : String) (msgs : List Record)
    (offs : List Nat) (o : Nat) (cfg : ReadConfig)
    (hr : Reachable st)
    (hwf : ∀ m ∈ msgs, m.timestamp < U64MOD)
    (hovf : ∀ c, storeGet st (shardOffsetKey ns shard) = some (.vnat c) →
      c + msgs.length < U64MOD)
    (hbw : batch_write st ns shard msgs = .ok (st', offs))
    (hc : storeGet st (shardOffsetKey ns shard) = some (.vnat o))
    (hn : msgs.length ≤ cfg.max_record_num)
    (hms : cfg.max_size = U64MOD - 1)
    (hsz : (msgs.map (fun m => m.data.length)).sum ≤ U64MOD - 1) :
    offs = List.range' o msgs.length ∧
    read_by_offset st' ns shard o cfg = .ok (withOffsets o msgs) := by
  have hinv := Reachable_StoreInv hr
  have hth : thread_batch_write st ns shard msgs = .ok (st', offs) := by
    simpa [batch_write, ensure_shard_exists, readU64, hc,
      Except.bind, bind] using hbw
  have hcap : o + msgs.length < U64MOD := hovf o hc
  have hb20 : o + msgs.length ≤ 10 ^ 20 :=
    le_of_lt (lt_trans hcap U64MOD_lt_pow20)
  have hwf20 : ∀ m ∈ msgs, m.timestamp < 10 ^ 20 :=
    fun m hm => lt_trans (hwf m hm) U64MOD_lt_pow20
  obtain ⟨hoffs, hoff, hrecin, _, _, _, _⟩ :=
    thread_batch_write_get hc hb20 hwf20 hth
  have hinv' : StoreInv st' := StoreInv_write hinv hwf hovf hth
  have hc' : storeGet st' (offsetKeyP (pKey ns shard))
      = some (.vnat (o + msgs.length)) := by
    rw [hoff, if_pos rfl]
  have hc'' : storeGet st' (shardOffsetKey ns shard)
      = some (.vnat (o + msgs.length)) := by
    rw [shardOffsetKey_eq]
    exact hc'
  refine ⟨hoffs, ?_⟩
  have hloop := readLoop_spec st' ns shard cfg.max_size msgs o
    (satAdd64 o cfg.max_record_num - o) 0
    (fun j msg hj => by rw [shardRecordKey_eq]; exact hrecin j msg hj)
    (by
      rw [shardRecordKey_eq]
      exact hinv'.recAbove _ _ hc' (o + msgs.length) (le_refl _))
    (by
      unfold satAdd64
      rcases le_total (o + cfg.max_record_num) (U64MOD - 1) with hle | hle
      · rw [min_eq_left hle]
        omega
      · rw [min_eq_right hle]
        omega)
    (by rw [hms]; omega)
  simp only [read_by_offset, ensure_shard_exists, readU64, hc'',
    Except.bind, bind, Option.isNone_some, Bool.false_eq_true, if_false]
  exact hloop

/-- Witness for C3 on the concrete two-record run: reading back from
offset 0 with `max_record_num = 2` and `max_size = u64::MAX` returns the
two records stamped with offsets 0 and 1. -/
theorem claim_C3_witness :
    read_by_offset wStore2 "n" "s" 0
      { max_record_num := 2, max_size := U64MOD - 1 }
      = .ok (withOffsets 0 [wMsg1, wMsg2]) := by
  have h1 : create_shard ([] : Store) wInfo = .ok wStore1 := rfl
  have hr1 : Reachable wStore1 := Reachable.create Reachable.empty h1
  have hbw : batch_write wStore1 "n" "s" [wMsg1, wMsg2]
      = .ok (wStore2, [0, 1]) := rfl
  have hovf : ∀ c, storeGet wStore1 (shardOffsetKey "n" "s")
      = some (.vnat c) → c + ([wMsg1, wMsg2] : List Record).length < U64MOD := by
    intro c hcc
    have he : storeGet wStore1 (shardOffsetKey "n" "s")
        = some (Value.vnat 0) := by decide
    rw [he] at hcc
    have hx := Option.some.inj hcc
    injection hx with hh
    subst hh
    decide
  exact (claim_C3 wStore1 wStore2 "n" "s" [wMsg1, wMsg2] [0, 1] 0
    { max_record_num := 2, max_size := U64MOD - 1 } hr1 (by decide) hovf hbw
    (by decide) (by decide) rfl (by decide)).2

/-! ### Splitting keys on slashes -/

lemma splitSlash_cons (c : Char) (l : List Char) :
    splitSlash (c :: l)
      = if c = '/' then [] :: splitSlash l
        else
          match splitSlash l with
          | h :: t => (c :: h) :: t
          | [] => [[c]] := rfl

lemma splitSlash_noslash : ∀ (a : List Char), (∀ c ∈ a, c ≠ '/') →
    splitSlash a = [a]
  | [], _ => rfl
  | c :: a, h => by
    rw [splitSlash_cons, if_neg (h c (List.mem_cons_self _ _)),
      splitSlash_noslash a (fun x hx => h x (List.mem_cons_of_mem _ hx))]

lemma splitSlash_append_slash :
    ∀ (a : List Char), (∀ c ∈ a, c ≠ '/') → ∀ (b : List Char),
    splitSlash (a ++ '/' :: b) = a :: splitSlash b
  | [], _, b => by
    rw [List.nil_append, splitSlash_cons, if_pos rfl]
  | c :: a, h, b => by
    rw [List.cons_append, splitSlash_cons,
      if_neg (h c (List.mem_cons_self _ _)),
      splitSlash_append_slash a (fun x hx => h x (List.mem_cons_of_mem _ hx)) b]

lemma timestamp_lit_data :
    "/timestamp/".data = '/' :: ("timestamp".data ++ ['/']) := by decide

lemma timestamp_lit_noslash : ∀ c ∈ "timestamp".data, c ≠ '/' := by decide

/-- Splitting a well-formed timestamp-index key on `/` yields the six
parts `["", "timestamp", ns, shard, pad20 ts, pad20 off]`, provided the
namespace and shard names contain no slash. -/
lemma splitSlash_tsKey (ns shard : String)
    (hns : ∀ c ∈ ns.data, c ≠ '/') (hsh : ∀ c ∈ shard.data, c ≠ '/')
    (t o : Nat) (ht : t < 10 ^ 20) (ho : o < 10 ^ 20) :
    splitSlash (timestampOffsetKey ns shard t o).data
      = [[], "timestamp".data, ns.data, shard.data,
          padDigits 20 t, padDigits 20 o] := by
  have hdata : (timestampOffsetKey ns shard t o).data
      = '/' :: ("timestamp".data ++ '/' :: (ns.data ++ '/' :: (shard.data
          ++ '/' :: (padDigits 20 t ++ '/' :: padDigits 20 o)))) := by
    simp only [timestampOffsetKey, String.data_append, timestamp_lit_data,
      pad20]
    simp [List.append_assoc]
  rw [hdata, splitSlash_cons, if_pos rfl,
    splitSlash_append_slash _ timestamp_lit_noslash,
    splitSlash_append_slash _ hns,
    splitSlash_append_slash _ hsh,
    splitSlash_append_slash _ (padDigits_ne_slash 20 t ht),
    splitSlash_noslash _ (padDigits_ne_slash 20 o ho)]

lemma digitChar_lt10_ne_plus : ∀ d, d < 10 → Nat.digitChar d ≠ '+' := by decide

lemma digitChar_toNat : ∀ d, d < 10 → (Nat.digitChar d).toNat - 48 = d := by
  decide

lemma padDigits_foldl :
    ∀ (K n a : Nat), n < 10 ^ K →
    (padDigits K n).foldl (fun acc c => acc * 10 + (c.toNat - 48)) a
      = a * 10 ^ K + n
  | 0, n, a, h => by
    have : n = 0 := by omega
    subst this
    simp [padDigits]
  | K + 1, n, a, h => by
    have hd : n / 10 ^ K < 10 := div_pow_lt10 h
    simp only [padDigits, List.foldl_cons]
    rw [digitChar_toNat _ hd,
      padDigits_foldl K (n % 10 ^ K) _ (Nat.mod_lt _ (Nat.pow_pos (by omega)))]
    have hdm : 10 ^ K * (n / 10 ^ K) + n % 10 ^ K = n := Nat.div_add_mod n _
    calc (a * 10 + n / 10 ^ K) * 10 ^ K + n % 10 ^ K
        = a * (10 ^ K * 10) + (10 ^ K * (n / 10 ^ K) + n % 10 ^ K) := by ring
      _ = a * 10 ^ (K + 1) + n := by rw [hdm, ← pow_succ]

/-- Rust's `parse::<u64>` round-trips the `{:020}` rendering of any
`u64`. -/
lemma parseU64_padDigits (t : Nat) (ht : t < U64MOD) :
    parseU64 (padDigits 20 t) = some t := by
  have ht20 : t < 10 ^ 20 := lt_trans ht U64MOD_lt_pow20
  have hhead : Nat.digitChar (t / 10 ^ 19) ≠ '+' :=
    digitChar_lt10_ne_plus _ (div_pow_lt10 ht20)
  have hshape : padDigits 20 t
      = Nat.digitChar (t / 10 ^ 19) :: padDigits 19 (t % 10 ^ 19) := rfl
  have hstrip : stripPlus (padDigits 20 t) = padDigits 20 t := by
    rw [hshape]
    simp only [stripPlus]
    rw [if_neg hhead]
  unfold parseU64
  rw [hstrip]
  have hnonempty : padDigits 20 t ≠ [] := by
    intro he
    have := padDigits_length 20 t
    rw [he] at this
    simp at this
  have hdigits : (padDigits 20 t).all Char.isDigit = true :=
    List.all_eq_true.mpr (fun c hc => padDigits_isDigit 20 t ht20 c hc)
  rw [if_pos ⟨hnonempty, hdigits⟩]
  have hfold := padDigits_foldl 20 t 0 ht20
  rw [Nat.zero_mul, Nat.zero_add] at hfold
  rw [hfold, if_pos ht]

/-! ### Ordering of timestamp-index keys -/

lemma keyLtL_cons (x y : Char) (xs ys : List Char) :
    keyLtL (x :: xs) (y :: ys)
      = if x < y then true else if y < x then false else keyLtL xs ys := rfl

lemma keyLtL_append_left : ∀ (s u v : List Char),
    keyLtL (s ++ u) (s ++ v) = keyLtL u v
  | [], _, _ => rfl
  | c :: s, u, v => by
    rw [List.cons_append, List.cons_append, keyLtL_cons,
      if_neg (lt_irrefl c), if_neg (lt_irrefl c), keyLtL_append_left s u v]

lemma keyLtL_append_of_lt : ∀ {a b : List Char}, keyLtL a b = true →
    a.length = b.length → ∀ (u v : List Char), keyLtL (a ++ u) (b ++ v) = true
  | [], [], h, _, _, _ => by simp [keyLtL] at h
  | [], _ :: _, _, hl, _, _ => by simp at hl
  | _ :: _, [], h, _, _, _ => by simp [keyLtL] at h
  | x :: xs, y :: ys, h, hl, u, v => by
    rw [keyLtL_cons] at h
    rw [List.cons_append, List.cons_append, keyLtL_cons]
    by_cases hxy : x < y
    · rw [if_pos hxy]
    · rw [if_neg hxy] at h ⊢
      by_cases hyx : y < x
      · rw [if_pos hyx] at h
        exact absurd h (by simp)
      · rw [if_neg hyx] at h ⊢
        exact keyLtL_append_of_lt h (by simpa using hl) u v

lemma digitChar_mono : ∀ y, y < 10 → ∀ x, x < y →
    Nat.digitChar x < Nat.digitChar y := by decide

lemma padDigits_lt : ∀ (K a b : Nat), a < b → b < 10 ^ K →
    keyLtL (padDigits K a) (padDigits K b) = true
  | 0, _, _, hab, hb => by omega
  | K + 1, a, b, hab, hb => by
    have hdb : b / 10 ^ K < 10 := div_pow_lt10 hb
    have hdle : a / 10 ^ K ≤ b / 10 ^ K := Nat.div_le_div_right (le_of_lt hab)
    show keyLtL (Nat.digitChar (a / 10 ^ K) :: padDigits K (a % 10 ^ K))
      (Nat.digitChar (b / 10 ^ K) :: padDigits K (b % 10 ^ K)) = true
    rw [keyLtL_cons]
    rcases lt_or_eq_of_le hdle with hdlt | hdeq
    · rw [if_pos (digitChar_mono _ hdb _ hdlt)]
    · rw [hdeq, if_neg (lt_irrefl _), if_neg (lt_irrefl _)]
      apply padDigits_lt K
      · have h1 := Nat.div_add_mod a (10 ^ K)
        have h2 := Nat.div_add_mod b (10 ^ K)
        rw [hdeq] at h1
        have key : 10 ^ K * (b / 10 ^ K) + a % 10 ^ K
            < 10 ^ K * (b / 10 ^ K) + b % 10 ^ K := by
          calc 10 ^ K * (b / 10 ^ K) + a % 10 ^ K = a := h1
            _ < b := hab
            _ = 10 ^ K * (b / 10 ^ K) + b % 10 ^ K := h2.symm
        exact Nat.lt_of_add_lt_add_left key
      · exact Nat.mod_lt _ (Nat.pow_pos (by omega))

lemma timestampOffsetKey_pfx_eq (ns shard : String) (t o : Nat) :
    timestampOffsetKey ns shard t o
      = timestampOffsetKeyPfx ns shard ++ (pad20 t ++ ("/" ++ pad20 o)) := by
  simp [timestampOffsetKey, timestampOffsetKeyPfx, String.append_assoc]

lemma timestampOffsetKeySearchPfx_eq (ns shard : String) (ts : Nat) :
    timestampOffsetKeySearchPfx ns shard ts
      = timestampOffsetKeyPfx ns shard ++ (pad20 ts ++ "/") := by
  simp [timestampOffsetKeySearchPfx, timestampOffsetKeyPfx,
    String.append_assoc]

/-- Key order on two timestamp-index keys of the same shard agrees with
the numeric lexicographic order of their `(timestamp, offset)`
components. -/
lemma keyLt_tsKey_mono (ns shard : String) {t o t' o' : Nat}
    (ht' : t' < 10 ^ 20) (ho' : o' < 10 ^ 20)
    (h : t < t' ∨ (t = t' ∧ o < o')) :
    keyLt (timestampOffsetKey ns shard t o)
      (timestampOffsetKey ns shard t' o') = true := by
  rw [timestampOffsetKey_pfx_eq, timestampOffsetKey_pfx_eq]
  unfold keyLt
  simp only [String.data_append]
  rw [keyLtL_append_left]
  rcases h with hlt | ⟨rfl, hlt⟩
  · exact keyLtL_append_of_lt (padDigits_lt 20 t t' hlt ht')
      (by rw [padDigits_length, padDigits_length]) _ _
  · rw [keyLtL_append_left, keyLtL_append_left]
    exact padDigits_lt 20 o o' hlt ho'

/-! ### Store membership and prefix scans -/

lemma storeGet_of_mem_pairwise :
    ∀ {st : Store}, st.Pairwise (fun a b => keyLt a.1 b.1 = true) →
    ∀ {e : String × Value}, e ∈ st → storeGet st e.1 = some e.2
  | [], _, e, he => absurd he (List.not_mem_nil e)
  | (k₀, v₀) :: rest, hp, e, he => by
    obtain ⟨hhead, htail⟩ := List.pairwise_cons.mp hp
    rcases List.mem_cons.mp he with h' | h'
    · subst h'
      simp [storeGet]
    · have hne : e.1 ≠ k₀ := Ne.symm (keyLt_ne (hhead e h'))
      simp only [storeGet, if_neg hne]
      exact storeGet_of_mem_pairwise htail h'

lemma mem_of_storeGet :
    ∀ {st : Store} {k : String} {v : Value},
    storeGet st k = some v → (k, v) ∈ st
  | [], k, v, h => by simp [storeGet] at h
  | (k₀, v₀) :: rest, k, v, h => by
    simp only [storeGet] at h
    by_cases hk : k = k₀
    · rw [if_pos hk] at h
      subst hk
      rw [Option.some.inj h]
      exact List.mem_cons_self _ _
    · rw [if_neg hk] at h
      exact List.mem_cons_of_mem _ (mem_of_storeGet h)

lemma mem_readPfx {st : Store} {p : String} {e : String × Value} :
    e ∈ readPfx st p ↔ e ∈ st ∧ strIsPfx p e.1 = true := by
  simp [readPfx, List.mem_filter]

lemma strIsPfx_tsPfx_tsKey (ns shard : String) (t o : Nat) :
    strIsPfx (timestampOffsetKeyPfx ns shard)
      (timestampOffsetKey ns shard t o) = true := by
  unfold strIsPfx
  rw [timestampOffsetKey_pfx_eq, String.data_append]
  exact List.isPrefixOf_iff_prefix.mpr (List.prefix_append _ _)

lemma strIsPfx_searchPfx_tsKey (ns shard : String) (ts t o : Nat)
    (ht : t < 10 ^ 20) :
    strIsPfx (timestampOffsetKeySearchPfx ns shard ts)
      (timestampOffsetKey ns shard t o) = true ↔ ts = t := by
  unfold strIsPfx
  rw [timestampOffsetKeySearchPfx_eq, timestampOffsetKey_pfx_eq]
  simp only [String.data_append]
  rw [List.isPrefixOf_iff_prefix, List.prefix_append_right_inj]
  constructor
  · intro hpfx
    obtain ⟨r, hr⟩ := hpfx
    rw [List.append_assoc] at hr
    obtain ⟨hpad, _⟩ := List.append_inj hr
      (by rw [pad20_length, pad20_length])
    exact pad20_inj ht (String.ext hpad)
  · rintro rfl
    exact ⟨(pad20 o).data, by simp⟩

lemma strIsPfx_trans {a b c : String} (hab : strIsPfx a b = true)
    (hbc : strIsPfx b c = true) : strIsPfx a c = true := by
  unfold strIsPfx at *
  exact List.isPrefixOf_iff_prefix.mpr
    ((List.isPrefixOf_iff_prefix.mp hab).trans
      (List.isPrefixOf_iff_prefix.mp hbc))

lemma strIsPfx_tsPfx_searchPfx (ns shard : String) (ts : Nat) :
    strIsPfx (timestampOffsetKeyPfx ns shard)
      (timestampOffsetKeySearchPfx ns shard ts) = true := by
  unfold strIsPfx
  rw [timestampOffsetKeySearchPfx_eq, String.data_append]
  exact List.isPrefixOf_iff_prefix.mpr (List.prefix_append _ _)

/-- A well-formed timestamp-index entry determines its `(timestamp,
offset)` pair (injectivity of the key layout, bounded on one side). -/
lemma tsEntry_inj (ns shard : String) {t o t₀ o₀ : Nat}
    (ht₀ : t₀ < 10 ^ 20) (ho₀ : o₀ < 10 ^ 20)
    (h : ((timestampOffsetKey ns shard t o, Value.vnat o) : String × Value)
      = (timestampOffsetKey ns shard t₀ o₀, Value.vnat o₀)) :
    t = t₀ ∧ o = o₀ := by
  have hk : timestampOffsetKey ns shard t o
      = timestampOffsetKey ns shard t₀ o₀ := congrArg Prod.fst h
  have hv : Value.vnat o = Value.vnat o₀ := congrArg Prod.snd h
  have ho : o = o₀ := by injection hv
  rw [timestampOffsetKey_eq, timestampOffsetKey_eq] at hk
  obtain ⟨-, ht, -⟩ := tsKeyP_inj ht₀ ho₀ hk
  exact ⟨ht, ho⟩

/-- One step of the fallback scan on a well-formed timestamp-index
entry: the fifth `/`-separated part of the key parses back to the
timestamp, so the entry is taken iff its timestamp is `≥ ts`. -/
lemma tsScan_cons (ns shard : String)
    (hns : ∀ ch ∈ ns.data, ch ≠ '/') (hsh : ∀ ch ∈ shard.data, ch ≠ '/')
    (ts t o : Nat) (ht : t < U64MOD) (ho20 : o < 10 ^ 20)
    (rest : List (String × Value)) :
    tsScan ts ((timestampOffsetKey ns shard t o, Value.vnat o) :: rest)
      = if ts ≤ t then .ok (some ⟨o⟩) else tsScan ts rest := by
  have ht20 : t < 10 ^ 20 := lt_trans ht U64MOD_lt_pow20
  have hsplit := splitSlash_tsKey ns shard hns hsh t o ht20 ho20
  simp only [tsScan, hsplit, List.getElem?_cons_succ, List.getElem?_cons_zero,
    parseU64_padDigits t ht]

/-- The fallback scan over a sorted list of well-formed timestamp-index
entries either reports that every entry's timestamp is below `ts`, or
returns the stored offset of the entry with the lexicographically least
`(timestamp, offset)` among those with timestamp `≥ ts`. -/
lemma tsScan_result (ns shard : String)
    (hns : ∀ ch ∈ ns.data, ch ≠ '/') (hsh : ∀ ch ∈ shard.data, ch ≠ '/')
    (ts : Nat) :
    ∀ (es : List (String × Value)),
    (∀ e ∈ es, ∃ t o, t < U64MOD ∧ o < U64MOD ∧
      e = (timestampOffsetKey ns shard t o, Value.vnat o)) →
    es.Pairwise (fun a b => keyLt a.1 b.1 = true) →
    (tsScan ts es = .ok none ∧
      ∀ t o, (timestampOffsetKey ns shard t o, Value.vnat o) ∈ es → t < ts) ∨
    (∃ t o, t < U64MOD ∧ o < U64MOD ∧
      (timestampOffsetKey ns shard t o, Value.vnat o) ∈ es ∧ ts ≤ t ∧
      tsScan ts es = .ok (some ⟨o⟩) ∧
      ∀ t₂ o₂, (timestampOffsetKey ns shard t₂ o₂, Value.vnat o₂) ∈ es →
        ts ≤ t₂ → t < t₂ ∨ (t = t₂ ∧ o ≤ o₂))
  | [], _, _ => by
    left
    exact ⟨rfl, fun t o hmem => absurd hmem (List.not_mem_nil _)⟩
  | e :: rest, hshape, hsorted => by
    obtain ⟨t₀, o₀, ht₀, ho₀, he⟩ := hshape e (List.mem_cons_self _ _)
    subst he
    have ht₀20 : t₀ < 10 ^ 20 := lt_trans ht₀ U64MOD_lt_pow20
    have ho₀20 : o₀ < 10 ^ 20 := lt_trans ho₀ U64MOD_lt_pow20
    obtain ⟨hhead, htail⟩ := List.pairwise_cons.mp hsorted
    have hstep := tsScan_cons ns shard hns hsh ts t₀ o₀ ht₀ ho₀20 rest
    by_cases hts : ts ≤ t₀
    · right
      refine ⟨t₀, o₀, ht₀, ho₀, List.mem_cons_self _ _, hts, ?_, ?_⟩
      · rw [hstep, if_pos hts]
      · intro t₂ o₂ hmem₂ hts₂
        rcases List.mem_cons.mp hmem₂ with heq | hmem₂'
        · obtain ⟨ht2, ho2⟩ := tsEntry_inj ns shard ht₀20 ho₀20 heq
          right
          omega
        · have hb := hhead _ hmem₂'
          by_contra hcon
          push_neg at hcon
          obtain ⟨hle, himp⟩ := hcon
          have hlex : t₂ < t₀ ∨ (t₂ = t₀ ∧ o₂ < o₀) := by
            rcases eq_or_lt_of_le hle with heq2 | hlt2
            · exact Or.inr ⟨heq2, himp heq2.symm⟩
            · exact Or.inl hlt2
          have hrev := keyLt_tsKey_mono ns shard ht₀20 ho₀20 hlex
          have := keyLt_asymm hb
          rw [this] at hrev
          exact absurd hrev (by simp)
    · have hshape' : ∀ e ∈ rest, ∃ t o, t < U64MOD ∧ o < U64MOD ∧
          e = (timestampOffsetKey ns shard t o, Value.vnat o) :=
        fun e hmem => hshape e (List.mem_cons_of_mem _ hmem)
      rcases tsScan_result ns shard hns hsh ts rest hshape' htail with
        ⟨hscan, hall⟩ | ⟨t, o, hbt, hbo, hmem, hts', hscan, hmin⟩
      · left
        refine ⟨by rw [hstep, if_neg hts]; exact hscan, ?_⟩
        intro t₂ o₂ hmem₂
        rcases List.mem_cons.mp hmem₂ with heq | hmem₂'
        · obtain ⟨ht2, -⟩ := tsEntry_inj ns shard ht₀20 ho₀20 heq
          omega
        · exact hall t₂ o₂ hmem₂'
      · right
        refine ⟨t, o, hbt, hbo, List.mem_cons_of_mem _ hmem, hts',
          by rw [hstep, if_neg hts]; exact hscan, ?_⟩
        intro t₂ o₂ hmem₂ hts₂
        rcases List.mem_cons.mp hmem₂ with heq | hmem₂'
        · obtain ⟨ht2, -⟩ := tsEntry_inj ns shard ht₀20 ho₀20 heq
          omega
        · exact hmin t₂ o₂ hmem₂' hts₂

/-- Under the store invariant, every entry of the shard's
timestamp-index prefix scan is a well-formed `(key, offset)` pair
(given that every stored key carrying the prefix is a timestamp-index
key of this shard). -/
lemma tsEntries_shape {st : Store} (inv : StoreInv st) (ns shard : String)
    (hscope : ∀ e ∈ st, strIsPfx (timestampOffsetKeyPfx ns shard) e.1 = true →
      ∃ t o, t < U64MOD ∧ o < U64MOD ∧
        e.1 = timestampOffsetKey ns shard t o) :
    ∀ e ∈ readPfx st (timestampOffsetKeyPfx ns shard),
      ∃ t o, t < U64MOD ∧ o < U64MOD ∧
        e = (timestampOffsetKey ns shard t o, Value.vnat o) := by
  intro e hmem
  obtain ⟨k, v⟩ := e
  obtain ⟨hst, hpfx⟩ := mem_readPfx.mp hmem
  obtain ⟨t, o, ht, ho, hkey⟩ := hscope _ hst hpfx
  refine ⟨t, o, ht, ho, ?_⟩
  have hkey' : k = timestampOffsetKey ns shard t o := hkey
  have hget : storeGet st k = some v :=
    storeGet_of_mem_pairwise inv.sorted hst
  rw [hkey', timestampOffsetKey_eq] at hget
  obtain ⟨r, -, -, hv, -, -⟩ := inv.tsSound _ _ _ _ hget
  simp only [Prod.mk.injEq]
  exact ⟨hkey', hv⟩

/-- Under the store invariant, every stored record of the shard
contributes its timestamp-index entry to the prefix scan. -/
lemma record_mem_tsEntries {st : Store} (inv : StoreInv st) (ns shard : String)
    {o : Nat} {r : Record}
    (hrec : storeGet st (recordKeyP (pKey ns shard) o) = some (.vrecord r)) :
    r.timestamp < U64MOD ∧ o < U64MOD ∧
      (timestampOffsetKey ns shard r.timestamp o, Value.vnat o)
        ∈ readPfx st (timestampOffsetKeyPfx ns shard) := by
  have hts := inv.tsComplete _ _ _ hrec
  obtain ⟨r', -, -, -, ht, ho⟩ := inv.tsSound _ _ _ _ hts
  refine ⟨ht, ho, mem_readPfx.mpr ⟨?_, ?_⟩⟩
  · have hmem := mem_of_storeGet hts
    rw [← timestampOffsetKey_eq] at hmem
    exact hmem
  · exact strIsPfx_tsPfx_tsKey ns shard r.timestamp o

/-- Under the store invariant, every timestamp-index entry of the prefix
scan points back at a stored record carrying that timestamp. -/
lemma tsEntry_record {st : Store} (inv : StoreInv st) (ns shard : String)
    {t o : Nat}
    (hmem : (timestampOffsetKey ns shard t o, Value.vnat o)
      ∈ readPfx st (timestampOffsetKeyPfx ns shard)) :
    ∃ r, storeGet st (recordKeyP (pKey ns shard) o) = some (.vrecord r) ∧
      r.timestamp = t := by
  obtain ⟨hst, -⟩ := mem_readPfx.mp hmem
  have hget : storeGet st (timestampOffsetKey ns shard t o) = some (.vnat o) :=
    storeGet_of_mem_pairwise inv.sorted hst
  rw [timestampOffsetKey_eq] at hget
  obtain ⟨r, h1, h2, -, -, -⟩ := inv.tsSound _ _ _ _ hget
  exact ⟨r, h1, h2⟩

/-- Claim C6 (corrected): on a reachable store whose namespace and shard
names contain no `/` and whose keys carrying the shard's timestamp-index
prefix are all timestamp-index keys of this shard,
`get_offset_by_timestamp` returns `ok (some offset)` where `offset`
belongs to the record whose `(timestamp, offset)` pair is
lexicographically least among the records with timestamp `≥ ts` —
i.e. the record with the smallest timestamp `≥ ts`, ties broken by the
smallest offset, which need not be the smallest offset with timestamp
`> ts` — and returns `ok none` exactly when every record of the shard
has timestamp `< ts`. -/
theorem claim_C6 (st : Store) (ns shard : String) (ts c : Nat)
    (hr : Reachable st)
    (hns : ∀ ch ∈ ns.data, ch ≠ '/') (hsh : ∀ ch ∈ shard.data, ch ≠ '/')
    (hc : storeGet st (shardOffsetKey ns shard) = some (.vnat c))
    (hscope : ∀ e ∈ st, strIsPfx (timestampOffsetKeyPfx ns shard) e.1 = true →
      ∃ t o, t < U64MOD ∧ o < U64MOD ∧
        e.1 = timestampOffsetKey ns shard t o) :
    ((∃ o r, storeGet st (shardRecordKey ns shard o) = some (.vrecord r) ∧
        ts ≤ r.timestamp) →
      ∃ o r, get_offset_by_timestamp st ns shard ts = .ok (some ⟨o⟩) ∧
        storeGet st (shardRecordKey ns shard o) = some (.vrecord r) ∧
        ts ≤ r.timestamp ∧
        (∀ o₂ r₂,
          storeGet st (shardRecordKey ns shard o₂) = some (.vrecord r₂) →
          ts ≤ r₂.timestamp →
          r.timestamp < r₂.timestamp ∨
            (r.timestamp = r₂.timestamp ∧ o ≤ o₂))) ∧
    ((∀ o r, storeGet st (shardRecordKey ns shard o) = some (.vrecord r) →
        r.timestamp < ts) →
      get_offset_by_timestamp st ns shard ts = .ok none) := by
  have inv := Reachable_StoreInv hr
  have hshape := tsEntries_shape inv ns shard hscope
  have hsorted_es : (readPfx st (timestampOffsetKeyPfx ns shard)).Pairwise
      (fun a b => keyLt a.1 b.1 = true) :=
    inv.sorted.filter _
  have hensure : ensure_shard_exists st ns shard = .ok () := by
    unfold ensure_shard_exists readU64
    rw [hc]
    rfl
  have hmain : get_offset_by_timestamp st ns shard ts
      = (match (readPfx st (timestampOffsetKeySearchPfx ns shard ts)).head? with
        | some e =>
          match e.2 with
          | .vnat off => Except.ok (some ⟨off⟩)
          | _ => Except.error "failed to deserialize u64"
        | none => tsScan ts (readPfx st (timestampOffsetKeyPfx ns shard))) := by
    unfold get_offset_by_timestamp
    rw [hensure]
    rfl
  rcases hhd : (readPfx st (timestampOffsetKeySearchPfx ns shard ts)).head?
    with _ | e
  · -- no exact-timestamp hit: the fallback scan decides
    rw [hhd] at hmain
    have hscanres := tsScan_result ns shard hns hsh ts
      (readPfx st (timestampOffsetKeyPfx ns shard)) hshape hsorted_es
    constructor
    · rintro ⟨o₂, r₂, hrec₂, hts₂⟩
      rw [shardRecordKey_eq] at hrec₂
      obtain ⟨hbt₂, hbo₂, hmem₂⟩ := record_mem_tsEntries inv ns shard hrec₂
      rcases hscanres with ⟨-, hall⟩ |
        ⟨t, o, hbt, hbo, hmem, hts', hscan, hmin⟩
      · exact absurd (hall _ _ hmem₂) (by omega)
      · obtain ⟨r, hrec, hrt⟩ := tsEntry_record inv ns shard hmem
        refine ⟨o, r, by rw [hmain]; exact hscan,
          by rw [shardRecordKey_eq]; exact hrec, by omega, ?_⟩
        intro o₃ r₃ hrec₃ hts₃
        rw [shardRecordKey_eq] at hrec₃
        obtain ⟨-, -, hmem₃⟩ := record_mem_tsEntries inv ns shard hrec₃
        have := hmin _ _ hmem₃ hts₃
        omega
    · intro hall
      rcases hscanres with ⟨hscan, -⟩ |
        ⟨t, o, hbt, hbo, hmem, hts', hscan, hmin⟩
      · rw [hmain]; exact hscan
      · obtain ⟨r, hrec, hrt⟩ := tsEntry_record inv ns shard hmem
        have := hall o r (by rw [shardRecordKey_eq]; exact hrec)
        exact absurd hts' (by omega)
  · -- exact-timestamp hit: the head of the search-prefix scan wins
    rw [hhd] at hmain
    obtain ⟨l', hlist⟩ :
        ∃ l', readPfx st (timestampOffsetKeySearchPfx ns shard ts)
          = e :: l' := by
      cases hl : readPfx st (timestampOffsetKeySearchPfx ns shard ts) with
      | nil => rw [hl] at hhd; exact absurd hhd (by simp)
      | cons a l' =>
        rw [hl] at hhd
        simp only [List.head?_cons, Option.some.injEq] at hhd
        exact ⟨l', by rw [← hhd]⟩
    have hmem_e : e ∈ readPfx st (timestampOffsetKeySearchPfx ns shard ts) := by
      rw [hlist]; exact List.mem_cons_self _ _
    obtain ⟨hst_e, hpfx_e⟩ := mem_readPfx.mp hmem_e
    have hpfx_ts : strIsPfx (timestampOffsetKeyPfx ns shard) e.1 = true :=
      strIsPfx_trans (strIsPfx_tsPfx_searchPfx ns shard ts) hpfx_e
    obtain ⟨t, o, hbt, hbo, hkey⟩ := hscope e hst_e hpfx_ts
    have ht20 : t < 10 ^ 20 := lt_trans hbt U64MOD_lt_pow20
    have ho20 : o < 10 ^ 20 := lt_trans hbo U64MOD_lt_pow20
    have hts_eq : ts = t := by
      have hp := hpfx_e
      rw [hkey] at hp
      exact (strIsPfx_searchPfx_tsKey ns shard ts t o ht20).mp hp
    have hget_e : storeGet st e.1 = some e.2 :=
      storeGet_of_mem_pairwise inv.sorted hst_e
    rw [hkey, timestampOffsetKey_eq] at hget_e
    obtain ⟨r, hrec, hrt, hv, -, -⟩ := inv.tsSound _ _ _ _ hget_e
    have hmain2 : get_offset_by_timestamp st ns shard ts
        = (match e.2 with
          | .vnat off => Except.ok (some ⟨off⟩)
          | _ => Except.error "failed to deserialize u64") := hmain
    have hres : get_offset_by_timestamp st ns shard ts = .ok (some ⟨o⟩) := by
      rw [hmain2, hv]
    constructor
    · intro _
      refine ⟨o, r, hres, by rw [shardRecordKey_eq]; exact hrec,
        by omega, ?_⟩
      intro o₂ r₂ hrec₂ hts₂
      rw [shardRecordKey_eq] at hrec₂
      by_cases ht₂eq : r₂.timestamp = ts
      · -- same timestamp: the head of the sorted scan has the least offset
        right
        refine ⟨by omega, ?_⟩
        have hcomp := inv.tsComplete _ _ _ hrec₂
        obtain ⟨r'', -, -, -, hbt₂, hbo₂⟩ := inv.tsSound _ _ _ _ hcomp
        have hbt₂20 : r₂.timestamp < 10 ^ 20 := lt_trans hbt₂ U64MOD_lt_pow20
        have hbo₂20 : o₂ < 10 ^ 20 := lt_trans hbo₂ U64MOD_lt_pow20
        have hmem₂ : (timestampOffsetKey ns shard r₂.timestamp o₂,
            Value.vnat o₂)
            ∈ readPfx st (timestampOffsetKeySearchPfx ns shard ts) := by
          refine mem_readPfx.mpr ⟨?_, ?_⟩
          · have hm := mem_of_storeGet hcomp
            rw [← timestampOffsetKey_eq] at hm
            exact hm
          · exact (strIsPfx_searchPfx_tsKey ns shard ts r₂.timestamp o₂
              hbt₂20).mpr ht₂eq.symm
        rw [hlist] at hmem₂
        rcases List.mem_cons.mp hmem₂ with heq | hmem₂'
        · have hv₂ : Value.vnat o₂ = e.2 := congrArg Prod.snd heq
          rw [hv] at hv₂
          have : o₂ = o := by injection hv₂
          omega
        · have hsorted_search :
              (readPfx st (timestampOffsetKeySearchPfx ns shard ts)).Pairwise
                (fun a b => keyLt a.1 b.1 = true) :=
            inv.sorted.filter _
          rw [hlist] at hsorted_search
          have hlt := (List.pairwise_cons.mp hsorted_search).1 _ hmem₂'
          by_contra hcon
          push_neg at hcon
          have hrev : keyLt (timestampOffsetKey ns shard r₂.timestamp o₂)
              (timestampOffsetKey ns shard t o) = true :=
            keyLt_tsKey_mono ns shard ht20 ho20 (Or.inr ⟨by omega, hcon⟩)
          rw [hkey] at hlt
          have hasym := keyLt_asymm hlt
          rw [hasym] at hrev
          exact absurd hrev (by simp)
      · left
        omega
    · intro hall
      have := hall o r (by rw [shardRecordKey_eq]; exact hrec)
      exact absurd this (by omega)

/-- Counterexample to claim C6's parenthetical gloss: in `wStore2` no
record has timestamp exactly `3`, the record at offset `0` has timestamp
`10 > 3` (so the smallest offset whose timestamp is `> 3` is `0`), yet
`get_offset_by_timestamp` at `ts = 3` returns offset `1` — the record
with the smallest timestamp `≥ 3`, not the smallest qualifying
offset. -/
theorem claim_C6_cex :
    get_offset_by_timestamp wStore2 "n" "s" 3 = .ok (some ⟨1⟩) ∧
    (wStore2.all fun e =>
      match e.2 with
      | Value.vrecord r => r.timestamp != 3
      | _ => true) = true ∧
    storeGet wStore2 (shardRecordKey "n" "s" 0)
      = some (.vrecord { wMsg1 with offset := some 0 }) ∧
    ({ wMsg1 with offset := some 0 } : Record).timestamp = 10 ∧
    storeGet wStore2 (shardRecordKey "n" "s" 1)
      = some (.vrecord { wMsg2 with offset := some 1 }) ∧
    ({ wMsg2 with offset := some 1 } : Record).timestamp = 5 :=
  ⟨rfl, rfl, rfl, rfl, rfl, rfl⟩

/-- Witness for claim C6 at the concrete store `wStore2` with `ts = 7`:
all hypotheses are discharged on concrete inputs. -/
theorem claim_C6_witness :
    ((∃ o r, storeGet wStore2 (shardRecordKey "n" "s" o)
        = some (.vrecord r) ∧ 7 ≤ r.timestamp) →
      ∃ o r, get_offset_by_timestamp wStore2 "n" "s" 7 = .ok (some ⟨o⟩) ∧
        storeGet wStore2 (shardRecordKey "n" "s" o) = some (.vrecord r) ∧
        7 ≤ r.timestamp ∧
        (∀ o₂ r₂,
          storeGet wStore2 (shardRecordKey "n" "s" o₂) = some (.vrecord r₂) →
          7 ≤ r₂.timestamp →
          r.timestamp < r₂.timestamp ∨
            (r.timestamp = r₂.timestamp ∧ o ≤ o₂))) ∧
    ((∀ o r, storeGet wStore2 (shardRecordKey "n" "s" o)
        = some (.vrecord r) → r.timestamp < 7) →
      get_offset_by_timestamp wStore2 "n" "s" 7 = .ok none) := by
  refine claim_C6 wStore2 "n" "s" 7 2 ?_ ?_ ?_ ?_ ?_
  · have h1 : create_shard ([] : Store) wInfo = .ok wStore1 := rfl
    have htw : thread_batch_write wStore1 "n" "s" [wMsg1, wMsg2]
        = .ok (wStore2, [0, 1]) := rfl
    have hovf : ∀ c, storeGet wStore1 (shardOffsetKey "n" "s")
        = some (.vnat c) →
        c + ([wMsg1, wMsg2] : List Record).length < U64MOD := by
      intro c hc
      have he : storeGet wStore1 (shardOffsetKey "n" "s")
          = some (Value.vnat 0) := by decide
      rw [he] at hc
      have hx := Option.some.inj hc
      injection hx with hh
      subst hh
      decide
    exact Reachable.write (Reachable.create Reachable.empty h1)
      (by decide) hovf htw
  · decide
  · decide
  · rfl
  · intro e he hpfx
    simp only [wStore2, List.mem_cons, List.not_mem_nil, or_false] at he
    rcases he with rfl | rfl | rfl | rfl | rfl | rfl
    · exact absurd hpfx (by decide)
    · exact absurd hpfx (by decide)
    · exact absurd hpfx (by decide)
    · exact absurd hpfx (by decide)
    · exact ⟨5, 1, by decide, by decide, rfl⟩
    · exact ⟨10, 0, by decide, by decide, rfl⟩

end RobustMQ












